import Mathlib

/-!
Verification of the incremental-update core of the glimmer-vm excerpt:
the tag/revision system, the `CachedReference` memoizing wrapper
(`packages/@glimmer/reference/lib/reference.ts`), the keyed-list
reconciler and updating VM
(`packages/@glimmer/integration-tests/lib/modifiers.ts`), and the
duplicate-key disambiguation used for iteration keys.

The tag system itself lives in `@glimmer/validator`, which is not part
of the excerpt; it is modelled from the specification (spec section 4.1).
Everything else is translated directly from the TypeScript sources.
-/

namespace GlimmerSpec

/-! ## Tag / revision system (modelled from the spec)

Modelled from the spec: the `@glimmer/validator` module (`Tag`,
`CONSTANT_TAG`, `valueForTag`, `validateTag`, `combine`, `track`,
`consumeTag`, `resetTracking`) is imported by the sources but its
implementation is not part of the excerpt.  Spec section 4.1: a tag is a
dependency source (whose revision is read from the global store) or a
combinator over other tags whose reported revision is the max of its
children's.  A combinator is represented here by the list of dependency
sources reachable from it, which by the spec determines its reported
revision; `combine` of zero tags yields the constant tag that never
invalidates. -/
inductive Tag where
  | constant : Tag
  | dirtyable (id : Nat) : Tag
  | combinator (ids : List Nat) : Tag
deriving DecidableEq, Repr

/-- Revision store: the current revision of every dirtyable tag
(spec section 4.1: per-tag "last revision" fields). -/
def RevStore := Nat → Nat

/-- The dependency sources reachable from a tag. -/
def Tag.sources : Tag → List Nat
  | .constant => []
  | .dirtyable id => [id]
  | .combinator ids => ids

/-- Modelled from the spec: `valueForTag(tag)` returns the tag's current
revision, computing it from children for combinators (max of children;
the constant tag reports revision 0 and thus never invalidates). -/
def valueForTag (store : RevStore) : Tag → Nat
  | .constant => 0
  | .dirtyable id => store id
  | .combinator ids => (ids.map store).foldr max 0

/-- Modelled from the spec: `validateTag(tag, revision)` returns true iff
no dependency reachable from `tag` has advanced past `revision`,
i.e. `valueForTag(tag) <= revision`. -/
def validateTag (store : RevStore) (tag : Tag) (revision : Nat) : Bool :=
  valueForTag store tag ≤ revision

/-- Modelled from the spec: `combine(tags)` produces a combinator tag
whose revision tracks the max of its inputs; combining zero tags yields
a constant tag that never invalidates. -/
def combine : List Tag → Tag
  | [] => .constant
  | tags => .combinator (tags.flatMap Tag.sources)

/-- The ambient tracking-context stack: one frame per entered tracking
context, each frame holding the tags consumed inside it (spec section
4.1: tracking contexts may nest). -/
def TrackStack := List (List Tag)

/-- Modelled from the spec: `consumeTag` inside a tracking context
registers a dependency edge (records the tag in the innermost frame);
outside any tracking context it is a no-op. -/
def consumeTag (tag : Tag) : TrackStack → TrackStack
  | [] => []
  | frame :: rest => (frame ++ [tag]) :: rest

/-- Modelled from the spec: `resetTracking` discards the whole
tracking-context stack, so no partially-entered tracking context
remains active (spec section 4.4 / 7). -/
def resetTracking (_ : TrackStack) : TrackStack := []

/-- Whether a tag is the module-level `CONSTANT_TAG` (the source checks
this with JavaScript reference equality against the unique constant). -/
def Tag.isConstant : Tag → Bool
  | .constant => true
  | _ => false

/-! ## CachedReference (`@glimmer/reference/lib/reference.ts`, 17-47)

The computation delegate `compute()` is abstract in the source.  It is
represented by its effect: a function producing (possibly an exception,
else) the computed value together with the list of tags its tracked
reads consume.  `track(fn)` (modelled from the spec) runs `fn` in a
fresh tracking frame and returns `combine` of everything consumed,
restoring the outer frame on every exit, including an exceptional one. -/

/-- State of a `CachedReference`: the `tag`, `lastRevision` and
`lastValue` fields (reference.ts 18-21). -/
structure CachedReference (V : Type) where
  tag : Tag
  lastRevision : Option Nat
  lastValue : Option V
deriving Repr

/-- Field initializers of `CachedReference` (reference.ts 18-21):
`tag = CONSTANT_TAG`, `lastRevision = null`, `lastValue = null`. -/
def CachedReference.initial (V : Type) : CachedReference V :=
  { tag := .constant, lastRevision := none, lastValue := none }

/-- Result of one `value()` call: the (exception or) returned value, the
updated reference state, the updated ambient tracking stack, and how
many times `compute()` was invoked. -/
structure ValueOutcome (E V : Type) where
  result : Except E V
  state : CachedReference V
  trackStack : TrackStack
  computeCalls : Nat

/-- `CachedReference.value()` (reference.ts 23-40), with the computation
delegate re-expressed as an `Except`-returning step so that a throwing
`compute()` can be analysed.  If `lastRevision === null` or
`!validateTag(tag, lastRevision)`, recompute inside a fresh tracking
context (`track`), storing the value, the captured tag, and
`valueForTag(tag)`; otherwise use the stored value.  In both successful
cases, `consumeTag(tag)` runs before returning.  If `compute()` throws,
none of the assignments on lines 29-32 execute and `track` restores the
outer tracking frame (spec section 4.1). -/
def CachedReference.valueE [Inhabited V] (store : RevStore)
    (compute : Unit → Except E (V × List Tag))
    (st : CachedReference V) (ts : TrackStack) : ValueOutcome E V :=
  let stale :=
    match st.lastRevision with
    | none => true
    | some rev => !validateTag store st.tag rev
  if stale then
    match compute () with
    | .error e => { result := .error e, state := st, trackStack := ts, computeCalls := 1 }
    | .ok (v, consumed) =>
      let tag := combine consumed
      let st1 : CachedReference V :=
        { tag := tag, lastRevision := some (valueForTag store tag), lastValue := some v }
      { result := .ok v, state := st1, trackStack := consumeTag tag ts, computeCalls := 1 }
  else
    { result := .ok (st.lastValue.get!), state := st,
      trackStack := consumeTag st.tag ts, computeCalls := 0 }

/-- `CachedReference.value()` with a non-throwing `compute()` delegate
(the common case of reference.ts 23-40). -/
def CachedReference.value [Inhabited V] (store : RevStore)
    (compute : Unit → V × List Tag)
    (st : CachedReference V) (ts : TrackStack) : ValueOutcome Empty V :=
  CachedReference.valueE store (fun u => .ok (compute u)) st ts

/-- `CachedReference.isConst()` (reference.ts 42-44):
`this.tag === CONSTANT_TAG`. -/
def CachedReference.isConst (st : CachedReference V) : Bool :=
  st.tag.isConstant

/-! ## Claims C1, C8, C10 -/

/-- C1: a `value()` call with a prior computation whose cached tag
validates against the stored revision returns the previously cached
value without invoking `compute()`, leaving the state untouched;
otherwise it invokes `compute()` exactly once inside a fresh tracking
context and stores the resulting value, the captured tag and
`valueForTag` of that tag as the new baseline; in both cases
`consumeTag` is called on the (possibly just-recomputed) tag before
returning. -/
theorem cachedReference_value_spec [Inhabited V] (store : RevStore)
    (compute : Unit → V × List Tag) (st : CachedReference V) (ts : TrackStack) :
    (∀ rev v0, st.lastRevision = some rev → st.lastValue = some v0 →
      validateTag store st.tag rev = true →
      CachedReference.value store compute st ts =
        { result := .ok v0, state := st,
          trackStack := consumeTag st.tag ts, computeCalls := 0 }) ∧
    ((st.lastRevision = none ∨
        ∀ rev, st.lastRevision = some rev → validateTag store st.tag rev = false) →
      CachedReference.value store compute st ts =
        { result := .ok (compute ()).1,
          state := { tag := combine (compute ()).2,
                     lastRevision := some (valueForTag store (combine (compute ()).2)),
                     lastValue := some (compute ()).1 },
          trackStack := consumeTag (combine (compute ()).2) ts,
          computeCalls := 1 }) := by
  constructor
  · intro rev v0 hrev hval hvalid
    simp [CachedReference.value, CachedReference.valueE, hrev, hvalid, hval]
  · intro h
    rcases h with h | h
    · simp [CachedReference.value, CachedReference.valueE, h]
    · cases hrev : st.lastRevision with
      | none => simp [CachedReference.value, CachedReference.valueE, hrev]
      | some rev =>
        simp [CachedReference.value, CachedReference.valueE, hrev, h rev hrev]

/-- Witness for C1: both branches exercised at concrete inputs. -/
theorem cachedReference_value_spec_witness :
    (CachedReference.value (V := Nat) (fun _ => 0) (fun _ => (7, []))
        { tag := .constant, lastRevision := some 3, lastValue := some 5 } [] =
      { result := .ok 5,
        state := { tag := .constant, lastRevision := some 3, lastValue := some 5 },
        trackStack := [], computeCalls := 0 }) ∧
    (CachedReference.value (V := Nat) (fun _ => 0) (fun _ => (7, [Tag.dirtyable 0]))
        (CachedReference.initial Nat) [] =
      { result := .ok 7,
        state := { tag := combine [Tag.dirtyable 0], lastRevision := some 0,
                   lastValue := some 7 },
        trackStack := [], computeCalls := 1 }) := by
  refine ⟨?_, ?_⟩
  · exact (cachedReference_value_spec (fun _ => 0) (fun _ => (7, []))
      { tag := .constant, lastRevision := some 3, lastValue := some 5 } []).1
      3 5 rfl rfl (by decide)
  · exact (cachedReference_value_spec (fun _ => 0) (fun _ => (7, [Tag.dirtyable 0]))
      (CachedReference.initial Nat) []).2 (Or.inl rfl)

/-- C8: when `compute()` throws during a `value()` call that had to
recompute, the exception surfaces to the caller, the reference's cached
state is left exactly as it was (so a never-computed reference stays
unset and no value from the failed computation is installed), and the
ambient tracking stack is restored unchanged. -/
theorem cachedReference_compute_throw [Inhabited V] (store : RevStore)
    (compute : Unit → Except E (V × List Tag))
    (st : CachedReference V) (ts : TrackStack) (e : E)
    (hthrow : compute () = .error e)
    (hstale : st.lastRevision = none ∨
      ∀ rev, st.lastRevision = some rev → validateTag store st.tag rev = false) :
    CachedReference.valueE store compute st ts =
      { result := .error e, state := st, trackStack := ts, computeCalls := 1 } := by
  rcases hstale with h | h
  · simp [CachedReference.valueE, h, hthrow]
  · cases hrev : st.lastRevision with
    | none => simp [CachedReference.valueE, hrev, hthrow]
    | some rev => simp [CachedReference.valueE, hrev, h rev hrev, hthrow]

/-- Witness for C8: a throwing `compute()` on a fresh reference. -/
theorem cachedReference_compute_throw_witness :
    CachedReference.valueE (V := Nat) (E := String) (fun _ => 0)
        (fun _ => .error "boom") (CachedReference.initial Nat) [[]] =
      { result := .error "boom", state := CachedReference.initial Nat,
        trackStack := [[]], computeCalls := 1 } :=
  cachedReference_compute_throw (fun _ => 0) (fun _ => .error "boom")
    (CachedReference.initial Nat) [[]] "boom" rfl (Or.inl rfl)

/-- C10: a fresh `CachedReference` (on which `value()` has never been
called) reports `isConst() = true`, because the initial tag is the
constant tag; and `isConst()` can become false only through a `value()`
call that actually recomputed and captured a non-constant tag. -/
theorem cachedReference_isConst_initial [Inhabited V] :
    (CachedReference.isConst (CachedReference.initial V) = true) ∧
    (∀ (store : RevStore) (compute : Unit → V × List Tag)
        (st : CachedReference V) (ts : TrackStack),
      CachedReference.isConst st = true →
      CachedReference.isConst (CachedReference.value store compute st ts).state = false →
      (CachedReference.value store compute st ts).computeCalls = 1 ∧
        (CachedReference.value store compute st ts).state.tag = combine (compute ()).2 ∧
        combine (compute ()).2 ≠ Tag.constant) := by
  refine ⟨rfl, ?_⟩
  intro store compute st ts hconst hres
  cases hrev : st.lastRevision with
  | none =>
    refine ⟨?_, ?_, ?_⟩
    · simp [CachedReference.value, CachedReference.valueE, hrev]
    · simp [CachedReference.value, CachedReference.valueE, hrev]
    · intro hEq
      simp [CachedReference.value, CachedReference.valueE, hrev, hEq,
        CachedReference.isConst, Tag.isConstant] at hres
  | some rev =>
    by_cases hv : validateTag store st.tag rev = true
    · exfalso
      simp [CachedReference.value, CachedReference.valueE, hrev, hv,
        CachedReference.isConst, hconst] at hres
      simp [CachedReference.isConst] at hconst
      rw [hconst] at hres
      simp at hres
    · have hv2 : validateTag store st.tag rev = false := by
        cases hb : validateTag store st.tag rev
        · rfl
        · exact absurd hb hv
      refine ⟨?_, ?_, ?_⟩
      · simp [CachedReference.value, CachedReference.valueE, hrev, hv2]
      · simp [CachedReference.value, CachedReference.valueE, hrev, hv2]
      · intro hEq
        simp [CachedReference.value, CachedReference.valueE, hrev, hv2, hEq,
          CachedReference.isConst, Tag.isConstant] at hres

/-- Witness for C10: a fresh reference is const; after recomputing with
a tracked read of a dirtyable tag it is not, and the second conjunct
applies. -/
theorem cachedReference_isConst_initial_witness :
    (CachedReference.isConst (CachedReference.initial Nat) = true) ∧
    ((CachedReference.value (V := Nat) (fun _ => 0) (fun _ => (7, [Tag.dirtyable 0]))
        (CachedReference.initial Nat) []).computeCalls = 1 ∧
      (CachedReference.value (V := Nat) (fun _ => 0) (fun _ => (7, [Tag.dirtyable 0]))
        (CachedReference.initial Nat) []).state.tag = combine [Tag.dirtyable 0] ∧
      combine [Tag.dirtyable 0] ≠ Tag.constant) :=
  ⟨(cachedReference_isConst_initial (V := Nat)).1,
    (cachedReference_isConst_initial (V := Nat)).2 (fun _ => 0)
      (fun _ => (7, [Tag.dirtyable 0])) (CachedReference.initial Nat) []
      rfl rfl⟩

/-! ## Duplicate-key disambiguation
(`@glimmer/reference` iteration support in modifiers.ts, 189-239) -/

/-- A disambiguated iteration key: either the raw key itself (for the
first occurrence in a pass) or the identity object produced by
`identityForNthOccurence` for the nth duplicate.  The module-global
`IDENTITIES` table (modifiers.ts 189-207) memoizes one identity object
per (value, count) pair, so object identity of those `{ value, count }`
records coincides with equality of the pair across passes. -/
inductive DisKey (α : Type) where
  | raw (v : α) : DisKey α
  | nth (v : α) (count : Nat) : DisKey α
deriving DecidableEq, Repr

/-- `identityForNthOccurence(value, count)` (modifiers.ts 191-207):
returns the memoized identity object for the given value and occurrence
count. -/
def identityForNthOccurence (v : α) (count : Nat) : DisKey α :=
  .nth v count

/-- Association-list update mirroring `WeakMapWithPrimitives.set`
(replace the binding if present, else add it). -/
def assocSet [DecidableEq α] (m : List (α × β)) (k : α) (v : β) : List (α × β) :=
  match m with
  | [] => [(k, v)]
  | (k1, v1) :: rest =>
    if k1 = k then (k, v) :: rest else (k1, v1) :: assocSet rest k v

/-- Association-list lookup mirroring `WeakMapWithPrimitives.get`. -/
def assocGet [DecidableEq α] (m : List (α × β)) (k : α) : Option β :=
  match m with
  | [] => none
  | (k1, v1) :: rest => if k1 = k then some v1 else assocGet rest k

/-- One key-assignment step of the closure returned by `uniqueKeyFor`
(modifiers.ts 224-239): look up the occurrence count seen so far for the
raw key (`seen.get(key) || 0`), bump it, and return the raw key for
count 0 or `identityForNthOccurence(key, count)` for the nth
duplicate. -/
def uniqueKeyStep [DecidableEq α] (seen : List (α × Nat)) (k : α) :
    DisKey α × List (α × Nat) :=
  let count := (assocGet seen k).getD 0
  let seen1 := assocSet seen k (count + 1)
  (if count = 0 then .raw k else identityForNthOccurence k count, seen1)

/-- The disambiguated keys of one key-assignment pass: `uniqueKeyFor`
allocates a fresh `seen` map per pass (a new closure is created by
`makeKeyFor` for every recomputation of the iterable), then maps every
raw key through `uniqueKeyStep`. -/
def uniqueKeysAux [DecidableEq α] (seen : List (α × Nat)) : List α → List (DisKey α)
  | [] => []
  | k :: rest =>
    let out := uniqueKeyStep seen k
    out.1 :: uniqueKeysAux out.2 rest

/-- All disambiguated keys of one pass over the given raw keys. -/
def uniqueKeys [DecidableEq α] (ks : List α) : List (DisKey α) :=
  uniqueKeysAux [] ks

/-! ## Claim C4 -/

/-- C4: raw keys `[a, b, a, a]` disambiguate to
`[a, b, a#1, a#2]` (first occurrence keeps the raw key, the nth
duplicate maps to the memoized occurrence-n identity); and a later pass
over `[a, a, b, a]` gives its first and second occurrences of `a`
(positions 0 and 1) the same disambiguated identities that the first
and second occurrences of `a` (positions 0 and 2) received in the prior
pass. -/
theorem uniqueKeys_disambiguation (a b : Nat) (hab : a ≠ b) :
    uniqueKeys [a, b, a, a] =
      [.raw a, .raw b, identityForNthOccurence a 1, identityForNthOccurence a 2] ∧
    (uniqueKeys [a, a, b, a])[0]? = (uniqueKeys [a, b, a, a])[0]? ∧
    (uniqueKeys [a, a, b, a])[1]? = (uniqueKeys [a, b, a, a])[2]? := by
  have hba : b ≠ a := fun h => hab h.symm
  refine ⟨?_, ?_, ?_⟩ <;>
    simp [uniqueKeys, uniqueKeysAux, uniqueKeyStep, assocGet, assocSet,
      identityForNthOccurence, hab, hba]

/-- Witness for C4 at `a = 0`, `b = 1`. -/
theorem uniqueKeys_disambiguation_witness :
    (0 : Nat) ≠ 1 ∧
    (uniqueKeys [0, 1, 0, 0] =
      [.raw 0, .raw 1, identityForNthOccurence 0 1, identityForNthOccurence 0 2] ∧
    (uniqueKeys [0, 0, 1, 0])[0]? = (uniqueKeys [0, 1, 0, 0])[0]? ∧
    (uniqueKeys [0, 0, 1, 0])[1]? = (uniqueKeys [0, 1, 0, 0])[2]?) :=
  ⟨by decide, uniqueKeys_disambiguation 0 1 (by decide)⟩

/-! ## Keyed-list reconciliation (`ListBlockOpcode.sync`, modifiers.ts 602-741)

Keys are represented by naturals (they are the disambiguated keys of
`uniqueKeyFor`, opaque to the reconciler).  Every `ListItemOpcode` is
identified by a numeric id standing for its JavaScript object identity;
its rendered live region is abstracted to a single tree node
`DomNode.item id`, which is also what `firstNode()` returns.  The
`ListItemOpcode` fields mirror modifiers.ts 571-600: key, the `value`
and `memo` reactive cells (updated in place by `updateReferences`-style
assignments in retain/move), and the per-pass `retained`/`seen`
flags. -/

/-- One item produced by the fresh iterator during a pass
(`OpaqueIterationItem`: key, value, memo). -/
structure IterItem where
  key : Nat
  value : Nat
  memo : Nat
deriving DecidableEq, Repr

/-- A `ListItemOpcode` (modifiers.ts 571-600). -/
structure ListItemOpcode where
  id : Nat
  key : Nat
  value : Nat
  memo : Nat
  retained : Bool
  seen : Bool
deriving DecidableEq, Repr

/-- A reference to an opcode object: either an element of the previous
children array (by position) or an opcode freshly created by
`insertItem` during this pass (by id).  JavaScript aliasing of the
mutable opcode objects is represented by indirection through these
references. -/
inductive OpRef where
  | oldIdx (i : Nat) : OpRef
  | freshId (id : Nat) : OpRef
deriving DecidableEq, Repr

/-- A node of the rendered list region: one node per item opcode plus
the transient boundary marker comment created at pass start. -/
inductive DomNode where
  | item (id : Nat) : DomNode
  | marker : DomNode
deriving DecidableEq, Repr

/-- The observable operations of one reconciliation pass.  `move` and
`insert` record the id of the "before" target opcode, or `none` when the
target is `undefined` (insert/move at the end, before the marker);
`delete` records the deleted opcode's key and id. -/
inductive SyncOp where
  | retain (key : Nat) : SyncOp
  | move (key : Nat) (beforeId : Option Nat) : SyncOp
  | insert (key : Nat) (beforeId : Option Nat) : SyncOp
  | delete (key : Nat) (id : Nat) : SyncOp
deriving DecidableEq, Repr

/-- The mutable state threaded through one `sync()` pass:
`old` is the captured `children` local (the previous children array,
whose opcodes are mutated in place), `idx` is `currentOpcodeIndex`,
`children` is the new `this.children` array being pushed, `map` is
`opcodeMap`, `fresh` stores opcodes created by `insertItem`, `dom` is
the rendered node list of the block's bounds (marker included),
`trace` records the emitted operations, `nextId` allocates ids for
inserted opcodes, and `destroyed` records each `destroy(opcode)`. -/
structure SyncSt where
  old : List ListItemOpcode
  idx : Nat
  children : List OpRef
  map : List (Nat × OpRef)
  fresh : List ListItemOpcode
  dom : List DomNode
  trace : List SyncOp
  nextId : Nat
  destroyed : List Nat
deriving DecidableEq, Repr

/-- Association-list deletion mirroring `Map.delete`. -/
def assocDelete [DecidableEq α] (m : List (α × β)) (k : α) : List (α × β) :=
  match m with
  | [] => []
  | (k1, v1) :: rest => if k1 = k then assocDelete rest k else (k1, v1) :: assocDelete rest k

/-- Remove the first occurrence of a node (the `clear`/`moveBounds`
detach step on the abstracted region). -/
def domRemove (dom : List DomNode) (x : DomNode) : List DomNode :=
  match dom with
  | [] => []
  | n :: rest => if n = x then rest else n :: domRemove rest x

/-- Insert `x` immediately before the first occurrence of `anchor`
(`insertBefore`); anchors are always present in a pass, the fallback
appends at the end. -/
def domInsertBefore (dom : List DomNode) (x anchor : DomNode) : List DomNode :=
  match dom with
  | [] => [x]
  | n :: rest => if n = anchor then x :: n :: rest else n :: domInsertBefore rest x anchor

/-- `before === undefined ? this.marker : before.firstNode()`
(modifiers.ts 705 and 729). -/
def anchorFor : Option ListItemOpcode → DomNode
  | none => .marker
  | some b => .item b.id

/-- `retainItem` (modifiers.ts 694-700) applied to the opcode at
position `i` of the previous children array: update its `memo` and
`value` cells, set `retained`, and push it onto the new children.  The
callers always pass a position that exists; the identity fallback is
unreachable. -/
def retainItem (st : SyncSt) (i : Nat) (item : IterItem) : SyncSt :=
  match st.old[i]? with
  | none => st
  | some op =>
    { st with
      old := st.old.set i { op with memo := item.memo, value := item.value, retained := true },
      children := st.children ++ [.oldIdx i],
      trace := st.trace ++ [.retain item.key] }

/-- Update the fresh-opcode store at a given id. -/
def updateFresh (l : List ListItemOpcode) (fid : Nat)
    (f : ListItemOpcode → ListItemOpcode) : List ListItemOpcode :=
  l.map fun op => if op.id = fid then f op else op

/-- `moveItem` (modifiers.ts 724-734): update the opcode's cells, set
`retained`, move its rendered region to just before the resolved
anchor (`before === undefined ? this.marker : before.firstNode()`), and
push it onto the new children.  `none` marks a dereference that would
fail (never reached in a pass over disambiguated keys). -/
def moveItem (st : SyncSt) (ref : OpRef) (item : IterItem)
    (bef : Option ListItemOpcode) : Option SyncSt :=
  match ref with
  | .oldIdx i =>
    match st.old[i]? with
    | none => none
    | some op =>
      some { st with
        old := st.old.set i { op with memo := item.memo, value := item.value, retained := true },
        children := st.children ++ [.oldIdx i],
        dom := domInsertBefore (domRemove st.dom (.item op.id)) (.item op.id) (anchorFor bef),
        trace := st.trace ++ [.move item.key (bef.map (·.id))] }
  | .freshId fid =>
    match st.fresh.find? (fun op => op.id == fid) with
    | none => none
    | some op =>
      some { st with
        fresh := updateFresh st.fresh fid
          (fun o => { o with memo := item.memo, value := item.value, retained := true }),
        children := st.children ++ [.freshId fid],
        dom := domInsertBefore (domRemove st.dom (.item op.id)) (.item op.id) (anchorFor bef),
        trace := st.trace ++ [.move item.key (bef.map (·.id))] }

/-- `insertItem` (modifiers.ts 702-722): spin up a resumed append VM
whose element builder is cursored at
`before === undefined ? this.marker : before.firstNode()`; its
`vm.enterItem` render produces a fresh `ListItemOpcode` (abstracted
here to a fresh opcode carrying the item's key/value/memo and a fresh
id) whose rendered region lands immediately before that cursor; the
opcode is pushed onto the new children, registered in `opcodeMap`, and
associated as a destroyable child of the list block. -/
def insertItem (st : SyncSt) (item : IterItem) (bef : Option ListItemOpcode) : SyncSt :=
  let op : ListItemOpcode :=
    { id := st.nextId, key := item.key, value := item.value, memo := item.memo,
      retained := false, seen := false }
  { st with
    fresh := st.fresh ++ [op],
    children := st.children ++ [.freshId op.id],
    map := assocSet st.map item.key (.freshId op.id),
    dom := domInsertBefore st.dom (.item op.id) (anchorFor bef),
    nextId := st.nextId + 1,
    trace := st.trace ++ [.insert item.key (bef.map (·.id))] }

/-- `deleteItem` (modifiers.ts 736-741): `destroy(opcode)` (releasing
its destroy-resources, recorded in `destroyed`), `clear(opcode)`
(its region leaves the tree), and `opcodeMap.delete(opcode.key)`. -/
def deleteItem (st : SyncSt) (op : ListItemOpcode) : SyncSt :=
  { st with
    destroyed := st.destroyed ++ [op.id],
    dom := domRemove st.dom (.item op.id),
    map := assocDelete st.map op.key,
    trace := st.trace ++ [.delete op.key op.id] }

/-- The `seen` field of the opcode a map entry points at. -/
def seenOfRef (st : SyncSt) : OpRef → Option Bool
  | .oldIdx i => (st.old[i]?).map (·.seen)
  | .freshId fid => (st.fresh.find? (fun op => op.id == fid)).map (·.seen)

/-- The forward scan of modifiers.ts 668-671:
`while (opcode.key !== key) { opcode.seen = true; opcode = children[++currentOpcodeIndex]; }`.
Returns the array with the skipped opcodes marked `seen` together with
the position of the match; `none` is the TypeError raised when the scan
runs off the end of the previous children array (reading `.key` of
`undefined`). -/
def scanForKey (old : List ListItemOpcode) (idx : Nat) (key : Nat) (fuel : Nat) :
    Option (List ListItemOpcode × Nat) :=
  match old[idx]? with
  | none => none
  | some op =>
    if op.key = key then some (old, idx)
    else
      match fuel with
      | 0 => none
      | fuel1 + 1 => scanForKey (old.set idx { op with seen := true }) (idx + 1) key fuel1

/-- The guard of the fast path on modifiers.ts 659:
`opcode !== undefined && opcode === item.key`.  The source compares the
opcode object itself (not its `key` field) with the item's key using
JavaScript strict equality; an opcode object and a key produced by the
key assignment are values of different kinds and are never identical,
so the comparison is always false and the fast path is dead code (the
map branch below retains the same opcode with the same effects). -/
def opcodeIsItemKey (_op : ListItemOpcode) (_key : Nat) : Bool := false

/-- The map branch of the `sync` loop body (modifiers.ts 662-678):
if `opcodeMap` has the key, either move the already-`seen` opcode or
scan forward and retain; otherwise insert a new item before
`children[currentOpcodeIndex]`. -/
def syncMain (st : SyncSt) (item : IterItem) : Option SyncSt :=
  match assocGet st.map item.key with
  | some ref =>
    match seenOfRef st ref with
    | none => none
    | some true => moveItem st ref item st.old[st.idx]?
    | some false =>
      match scanForKey st.old st.idx item.key st.old.length with
      | none => none
      | some (old1, j) =>
        some { retainItem { st with old := old1 } j item with idx := j + 1 }
  | none => some (insertItem st item st.old[st.idx]?)

/-- One iteration of the `while (item !== null)` loop of `sync`
(modifiers.ts 655-681). -/
def syncStep (st : SyncSt) (item : IterItem) : Option SyncSt :=
  match st.old[st.idx]? with
  | some opcode =>
    if opcodeIsItemKey opcode item.key then
      some { retainItem st st.idx item with idx := st.idx + 1 }
    else syncMain st item
  | none => syncMain st item

/-- The main loop of `sync` over the items of the fresh iterator. -/
def syncLoop (st : SyncSt) : List IterItem → Option SyncSt
  | [] => some st
  | item :: rest =>
    match syncStep st item with
    | none => none
    | some st1 => syncLoop st1 rest

/-- One iteration of the cleanup loop (modifiers.ts 683-691): delete a
previous opcode that was not retained this pass, otherwise `reset()`
its per-pass flags. -/
def finishStep (st : SyncSt) (i : Nat) : SyncSt :=
  match st.old[i]? with
  | none => st
  | some op =>
    if op.retained = false then deleteItem st op
    else { st with old := st.old.set i { op with retained := false, seen := false } }

/-- The cleanup loop over the captured previous children array. -/
def finishPass (st : SyncSt) : SyncSt :=
  (List.range st.old.length).foldl finishStep st

/-- `opcodeMap` as built by `initializeChild` during the initial render
(modifiers.ts 621-623): one `map.set(opcode.key, opcode)` per child in
order. -/
def initialMapAux (i : Nat) (old : List ListItemOpcode) (m : List (Nat × OpRef)) :
    List (Nat × OpRef) :=
  match old with
  | [] => m
  | op :: rest => initialMapAux (i + 1) rest (assocSet m op.key (.oldIdx i))

/-- The state at the start of a pass: new children array emptied
(`this.children = this.bounds.boundList = []`), marker freshly inserted
after the block's last node (modifiers.ts 630-635, 653). -/
def syncInit (old : List ListItemOpcode) (nextId0 : Nat) : SyncSt :=
  { old := old, idx := 0, children := [],
    map := initialMapAux 0 old [],
    fresh := [],
    dom := old.map (fun op => DomNode.item op.id) ++ [DomNode.marker],
    trace := [], nextId := nextId0, destroyed := [] }

/-- A whole reconciliation pass: the main loop (modifiers.ts 655-681)
followed by the cleanup loop (modifiers.ts 683-691). -/
def sync (old : List ListItemOpcode) (items : List IterItem) (nextId0 : Nat) :
    Option SyncSt :=
  (syncLoop (syncInit old nextId0) items).map finishPass

/-- Operations counted as touching key `k`. -/
def isRetainFor (k : Nat) : SyncOp → Bool
  | .retain k1 => k1 == k
  | _ => false

def isMoveFor (k : Nat) : SyncOp → Bool
  | .move k1 _ => k1 == k
  | _ => false

def isInsertFor (k : Nat) : SyncOp → Bool
  | .insert k1 _ => k1 == k
  | _ => false

def isDeleteFor (k : Nat) : SyncOp → Bool
  | .delete k1 _ => k1 == k
  | _ => false

/-! ## Helper lemmas about the association list and the forward scan -/

theorem assocGet_assocSet_eq [DecidableEq α] (m : List (α × β)) (k : α) (v : β) :
    assocGet (assocSet m k v) k = some v := by
  induction m with
  | nil => simp [assocSet, assocGet]
  | cons p rest ih =>
    obtain ⟨k1, v1⟩ := p
    by_cases h : k1 = k
    · simp [assocSet, assocGet, h]
    · simp [assocSet, assocGet, h, ih]

theorem assocGet_assocSet_ne [DecidableEq α] (m : List (α × β)) (k k2 : α) (v : β)
    (h : k2 ≠ k) : assocGet (assocSet m k v) k2 = assocGet m k2 := by
  have hk : k ≠ k2 := fun hEq => h hEq.symm
  induction m with
  | nil => simp [assocSet, assocGet, hk]
  | cons p rest ih =>
    obtain ⟨k1, v1⟩ := p
    by_cases h1 : k1 = k
    · subst h1
      simp [assocSet, assocGet, hk]
    · by_cases h2 : k1 = k2
      · simp [assocSet, assocGet, h1, h2, h]
      · simp [assocSet, assocGet, h1, h2, ih]

theorem initialMapAux_not_mem (rest : List ListItemOpcode) :
    ∀ (j : Nat) (m : List (Nat × OpRef)) (k : Nat),
    k ∉ rest.map (fun op => op.key) →
    assocGet (initialMapAux j rest m) k = assocGet m k := by
  induction rest with
  | nil => intro j m k _; rfl
  | cons op rest2 ih =>
    intro j m k hk
    simp only [List.map_cons, List.mem_cons] at hk
    push_neg at hk
    show assocGet (initialMapAux (j + 1) rest2 (assocSet m op.key (.oldIdx j))) k = assocGet m k
    rw [ih (j + 1) _ k hk.2, assocGet_assocSet_ne m op.key k _ hk.1]

theorem initialMapAux_get (rest : List ListItemOpcode) :
    ∀ (j : Nat) (m : List (Nat × OpRef)),
    (rest.map (fun op => op.key)).Nodup →
    ∀ (p : Nat) (op : ListItemOpcode), rest[p]? = some op →
    assocGet (initialMapAux j rest m) op.key = some (.oldIdx (j + p)) := by
  induction rest with
  | nil => intro j m _ p op hp; simp at hp
  | cons op0 rest2 ih =>
    intro j m hnd p op hp
    rw [List.map_cons] at hnd
    have hnd1 := List.nodup_cons.mp hnd
    cases p with
    | zero =>
      have hop : op0 = op := by simpa using hp
      subst hop
      show assocGet (initialMapAux (j + 1) rest2 (assocSet m op0.key (.oldIdx j))) op0.key =
        some (.oldIdx (j + 0))
      rw [initialMapAux_not_mem rest2 (j + 1) _ op0.key hnd1.1,
        assocGet_assocSet_eq]
      simp
    | succ p2 =>
      have hp2 : rest2[p2]? = some op := by simpa using hp
      show assocGet (initialMapAux (j + 1) rest2 (assocSet m op0.key (.oldIdx j))) op.key =
        some (.oldIdx (j + (p2 + 1)))
      rw [ih (j + 1) _ hnd1.2 p2 op hp2]
      congr 2
      omega

/-- Two positions of the previous children array carrying the same key
coincide when the keys are pairwise distinct. -/
theorem key_index_unique (old0 : List ListItemOpcode)
    (hnd : (old0.map (fun op => op.key)).Nodup) (i j : Nat)
    (opi opj : ListItemOpcode)
    (hi : old0[i]? = some opi) (hj : old0[j]? = some opj)
    (hk : opi.key = opj.key) : i = j := by
  have hi2 : (old0.map (fun op => op.key))[i]? = some opi.key := by
    rw [List.getElem?_map, hi]; rfl
  have hj2 : (old0.map (fun op => op.key))[j]? = some opj.key := by
    rw [List.getElem?_map, hj]; rfl
  have hlen : i < (old0.map (fun op => op.key)).length := by
    rw [List.length_map]
    exact (List.getElem?_eq_some_iff.mp hi).1
  exact List.getElem?_inj hlen hnd (by rw [hi2, hj2, hk])

theorem id_index_unique (old0 : List ListItemOpcode)
    (hnd : (old0.map (fun op => op.id)).Nodup) (i j : Nat)
    (opi opj : ListItemOpcode)
    (hi : old0[i]? = some opi) (hj : old0[j]? = some opj)
    (hk : opi.id = opj.id) : i = j := by
  have hi2 : (old0.map (fun op => op.id))[i]? = some opi.id := by
    rw [List.getElem?_map, hi]; rfl
  have hj2 : (old0.map (fun op => op.id))[j]? = some opj.id := by
    rw [List.getElem?_map, hj]; rfl
  have hlen : i < (old0.map (fun op => op.id)).length := by
    rw [List.length_map]
    exact (List.getElem?_eq_some_iff.mp hi).1
  exact List.getElem?_inj hlen hnd (by rw [hi2, hj2, hk])

theorem mem_key_iff (old0 : List ListItemOpcode) (k : Nat) :
    k ∈ old0.map (fun op => op.key) ↔
      ∃ (i : Nat) (op : ListItemOpcode), old0[i]? = some op ∧ op.key = k := by
  rw [List.mem_iff_getElem?]
  constructor
  · intro h
    obtain ⟨i, hi⟩ := h
    rw [List.getElem?_map] at hi
    obtain ⟨op, hop, hkey⟩ := Option.map_eq_some'.mp hi
    exact ⟨i, op, hop, hkey⟩
  · intro h
    obtain ⟨i, op, hop, hkey⟩ := h
    refine ⟨i, ?_⟩
    rw [List.getElem?_map, hop]
    simp [hkey]

/-- The fast path of modifiers.ts 659 is dead (the opcode object is
never strictly equal to the item's key), so every loop iteration takes
the map branch. -/
theorem syncStep_eq_syncMain (st : SyncSt) (item : IterItem) :
    syncStep st item = syncMain st item := by
  unfold syncStep
  cases h : st.old[st.idx]? <;> simp [opcodeIsItemKey]

/-- Specification of the forward scan (modifiers.ts 668-671): when the
first position carrying the key at or after the cursor is `i`, the scan
stops there, marking exactly the skipped positions `seen`. -/
theorem scanForKey_spec (fuel : Nat) :
    ∀ (old : List ListItemOpcode) (idx i key : Nat) (opi : ListItemOpcode),
    old[i]? = some opi → opi.key = key →
    (∀ j opj, idx ≤ j → j < i → old[j]? = some opj → opj.key ≠ key) →
    idx ≤ i → i - idx ≤ fuel →
    ∃ old1, scanForKey old idx key fuel = some (old1, i) ∧
      old1.length = old.length ∧
      (∀ j, (j < idx ∨ i ≤ j) → old1[j]? = old[j]?) ∧
      (∀ j opj, idx ≤ j → j < i → old[j]? = some opj →
        old1[j]? = some { opj with seen := true }) := by
  induction fuel with
  | zero =>
    intro old idx i key opi hi hkey _ hle hfuel
    have hidx : idx = i := by omega
    subst hidx
    refine ⟨old, ?_, rfl, fun j _ => rfl, fun j opj h1 h2 _ => by omega⟩
    rw [scanForKey, hi]
    simp [hkey]
  | succ fuel1 ih =>
    intro old idx i key opi hi hkey hfirst hle hfuel
    by_cases hidx : idx = i
    · subst hidx
      refine ⟨old, ?_, rfl, fun j _ => rfl, fun j opj h1 h2 _ => by omega⟩
      rw [scanForKey, hi]
      simp [hkey]
    · have hlt : idx < i := by omega
      have hilen : i < old.length := (List.getElem?_eq_some_iff.mp hi).1
      have hidxlen : idx < old.length := by omega
      obtain ⟨op, hop⟩ : ∃ op, old[idx]? = some op :=
        ⟨old[idx], List.getElem?_eq_getElem hidxlen⟩
      have hne : op.key ≠ key := hfirst idx op (Nat.le_refl idx) hlt hop
      have hstep : scanForKey old idx key (fuel1 + 1) =
          scanForKey (old.set idx { op with seen := true }) (idx + 1) key fuel1 := by
        rw [scanForKey, hop]
        simp [hne]
      set old2 := old.set idx { op with seen := true } with hold2
      have hget2 : ∀ j, j ≠ idx → old2[j]? = old[j]? := by
        intro j hj
        have hne2 : ¬idx = j := fun hEq => hj hEq.symm
        rw [hold2, List.getElem?_set]
        simp [hne2]
      have hi2 : old2[i]? = some opi := by rw [hget2 i (by omega), hi]
      have hfirst2 : ∀ j opj, idx + 1 ≤ j → j < i → old2[j]? = some opj → opj.key ≠ key := by
        intro j opj h1 h2 hj
        rw [hget2 j (by omega)] at hj
        exact hfirst j opj (by omega) h2 hj
      obtain ⟨old1, hscan, hlen, hunch, hmark⟩ :=
        ih old2 (idx + 1) i key opi hi2 hkey hfirst2 (by omega) (by omega)
      refine ⟨old1, by rw [hstep, hscan], ?_, ?_, ?_⟩
      · rw [hlen, hold2, List.length_set]
      · intro j hj
        rw [hunch j (by omega), hget2 j (by omega)]
      · intro j opj h1 h2 hj
        by_cases hji : j = idx
        · subst hji
          rw [hop] at hj
          cases hj
          rw [hunch j (Or.inl (by omega)), hold2, List.getElem?_set]
          simp [hidxlen]
        · rw [hmark j opj (by omega) h2 (by rw [hget2 j hji]; exact hj)]

/-! ## The main-loop invariant for claim C2 -/

/-- The invariant maintained across the main loop of `sync` when the
previous keys are pairwise distinct.  `old0` is the previous children
array at pass start and `P` the keys of the items processed so far. -/
structure SyncInv (old0 : List ListItemOpcode) (st : SyncSt) (P : List Nat) : Prop where
  lenEq : st.old.length = old0.length
  keyEq : ∀ (j : Nat),
    (st.old[j]?).map (fun op => op.key) = (old0[j]?).map (fun op => op.key)
  idEq : ∀ (j : Nat),
    (st.old[j]?).map (fun op => op.id) = (old0[j]?).map (fun op => op.id)
  retainedIff : ∀ (j : Nat) (op : ListItemOpcode), st.old[j]? = some op →
    (op.retained = true ↔ op.key ∈ P)
  seenBelow : ∀ (j : Nat) (op : ListItemOpcode), st.old[j]? = some op → j < st.idx →
    (op.retained = true ∨ op.seen = true)
  seenAbove : ∀ (j : Nat) (op : ListItemOpcode), st.old[j]? = some op → st.idx ≤ j →
    op.seen = false
  mapOld : ∀ (j : Nat) (op : ListItemOpcode), old0[j]? = some op →
    assocGet st.map op.key = some (.oldIdx j)
  mapNew : ∀ k, k ∉ old0.map (fun op => op.key) →
    ((assocGet st.map k).isSome = true ↔ k ∈ P)
  retainMoveCount : ∀ k,
    st.trace.countP (isRetainFor k) + st.trace.countP (isMoveFor k) =
      if k ∈ P ∧ k ∈ old0.map (fun op => op.key) then 1 else 0
  insertCount : ∀ k, st.trace.countP (isInsertFor k) =
    if k ∈ P ∧ k ∉ old0.map (fun op => op.key) then 1 else 0
  deleteCount : ∀ k, st.trace.countP (isDeleteFor k) = 0
  destroyedNil : st.destroyed = []

theorem getElem?_set_ne {α : Type} (l : List α) (i j : Nat) (a : α)
    (h : j ≠ i) : (l.set i a)[j]? = l[j]? := by
  have h2 : ¬i = j := fun hEq => h hEq.symm
  rw [List.getElem?_set]
  simp [h2]

theorem getElem?_set_self {α : Type} (l : List α) (i : Nat) (a : α)
    (h : i < l.length) : (l.set i a)[i]? = some a := by
  rw [List.getElem?_set]
  simp [h]

theorem countP_append_single (p : SyncOp → Bool) (tr : List SyncOp) (op : SyncOp) :
    (tr ++ [op]).countP p = tr.countP p + (if p op then 1 else 0) := by
  simp [List.countP_append, List.countP_cons]

theorem isRetainFor_retain (k k2 : Nat) : isRetainFor k (.retain k2) = (k2 == k) := rfl

theorem isRetainFor_move (k k2 : Nat) (b : Option Nat) :
    isRetainFor k (.move k2 b) = false := rfl

theorem isRetainFor_insert (k k2 : Nat) (b : Option Nat) :
    isRetainFor k (.insert k2 b) = false := rfl

theorem isRetainFor_delete (k k2 i : Nat) : isRetainFor k (.delete k2 i) = false := rfl

theorem isMoveFor_retain (k k2 : Nat) : isMoveFor k (.retain k2) = false := rfl

theorem isMoveFor_move (k k2 : Nat) (b : Option Nat) :
    isMoveFor k (.move k2 b) = (k2 == k) := rfl

theorem isMoveFor_insert (k k2 : Nat) (b : Option Nat) :
    isMoveFor k (.insert k2 b) = false := rfl

theorem isMoveFor_delete (k k2 i : Nat) : isMoveFor k (.delete k2 i) = false := rfl

theorem isInsertFor_retain (k k2 : Nat) : isInsertFor k (.retain k2) = false := rfl

theorem isInsertFor_move (k k2 : Nat) (b : Option Nat) :
    isInsertFor k (.move k2 b) = false := rfl

theorem isInsertFor_insert (k k2 : Nat) (b : Option Nat) :
    isInsertFor k (.insert k2 b) = (k2 == k) := rfl

theorem isInsertFor_delete (k k2 i : Nat) : isInsertFor k (.delete k2 i) = false := rfl

theorem isDeleteFor_retain (k k2 : Nat) : isDeleteFor k (.retain k2) = false := rfl

theorem isDeleteFor_move (k k2 : Nat) (b : Option Nat) :
    isDeleteFor k (.move k2 b) = false := rfl

theorem isDeleteFor_insert (k k2 : Nat) (b : Option Nat) :
    isDeleteFor k (.insert k2 b) = false := rfl

theorem isDeleteFor_delete (k k2 i : Nat) : isDeleteFor k (.delete k2 i) = (k2 == k) := rfl

/-- One loop iteration preserves the invariant and cannot fail, when the
item's key has not been processed yet. -/
theorem syncStep_preserves (old0 : List ListItemOpcode) (st : SyncSt) (P : List Nat)
    (item : IterItem)
    (hOldKeys : (old0.map (fun op => op.key)).Nodup)
    (inv : SyncInv old0 st P)
    (hkP : item.key ∉ P) :
    ∃ st1, syncStep st item = some st1 ∧ SyncInv old0 st1 (P ++ [item.key]) := by
  have hkey_st : ∀ (j : Nat) (op : ListItemOpcode), st.old[j]? = some op →
      ∃ op0, old0[j]? = some op0 ∧ op0.key = op.key := by
    intro j op hop
    have h := inv.keyEq j
    rw [hop] at h
    cases h0 : old0[j]? with
    | none => rw [h0] at h; simp at h
    | some op0 =>
      rw [h0] at h
      simp at h
      exact ⟨op0, rfl, h.symm⟩
  have hst_of_old : ∀ (j : Nat) (op0 : ListItemOpcode), old0[j]? = some op0 →
      ∃ op, st.old[j]? = some op ∧ op.key = op0.key := by
    intro j op0 h0
    have hk := inv.keyEq j
    rw [h0] at hk
    cases hs : st.old[j]? with
    | none => rw [hs] at hk; simp at hk
    | some op =>
      rw [hs] at hk
      simp at hk
      exact ⟨op, rfl, hk⟩
  have hkey_unique_st : ∀ (j1 j2 : Nat) (o1 o2 : ListItemOpcode),
      st.old[j1]? = some o1 → st.old[j2]? = some o2 → o1.key = o2.key → j1 = j2 := by
    intro j1 j2 o1 o2 h1 h2 hk
    obtain ⟨p1, hp1, hpk1⟩ := hkey_st j1 o1 h1
    obtain ⟨p2, hp2, hpk2⟩ := hkey_st j2 o2 h2
    exact key_index_unique old0 hOldKeys j1 j2 p1 p2 hp1 hp2 (by rw [hpk1, hpk2, hk])
  have hkeymem : ∀ (j : Nat) (op : ListItemOpcode), st.old[j]? = some op →
      op.key ∈ old0.map (fun o => o.key) := by
    intro j op hop
    obtain ⟨op0, h0, hk0⟩ := hkey_st j op hop
    exact (mem_key_iff old0 op.key).mpr ⟨j, op0, h0, hk0⟩
  have hmemP : ∀ (k : Nat), k ≠ item.key → (k ∈ P ++ [item.key] ↔ k ∈ P) := by
    intro k hk
    simp [List.mem_append, hk]
  have hitemP : item.key ∈ P ++ [item.key] := by simp
  rw [syncStep_eq_syncMain]
  by_cases hmem : item.key ∈ old0.map (fun op => op.key)
  · obtain ⟨i, opi0, hi0, hki0⟩ := (mem_key_iff old0 item.key).mp hmem
    obtain ⟨op, hop, hopkey⟩ := hst_of_old i opi0 hi0
    have hopk : op.key = item.key := by rw [hopkey, hki0]
    have hilen : i < st.old.length := (List.getElem?_eq_some_iff.mp hop).1
    have hlookup : assocGet st.map item.key = some (.oldIdx i) := by
      rw [← hki0]
      exact inv.mapOld i opi0 hi0
    have hret : op.retained = false := by
      cases hr : op.retained with
      | false => rfl
      | true =>
        have hmm := (inv.retainedIff i op hop).mp hr
        rw [hopk] at hmm
        exact absurd hmm hkP
    cases hseen : op.seen with
    | true =>
      have hlt : i < st.idx := by
        by_contra hcon
        push_neg at hcon
        have h := inv.seenAbove i op hop hcon
        rw [hseen] at h
        simp at h
      refine ⟨{ st with
          old := st.old.set i { op with memo := item.memo, value := item.value, retained := true },
          children := st.children ++ [.oldIdx i],
          dom := domInsertBefore (domRemove st.dom (.item op.id)) (.item op.id)
            (anchorFor st.old[st.idx]?),
          trace := st.trace ++ [.move item.key ((st.old[st.idx]?).map (fun b => b.id))] },
        ?_, ?_⟩
      · simp [syncMain, hlookup, seenOfRef, hop, hseen, moveItem]
      · dsimp only
        refine ⟨?_, ?_, ?_, ?_, ?_, ?_, ?_, ?_, ?_, ?_, ?_, inv.destroyedNil⟩
        · simp [List.length_set, inv.lenEq]
        · intro j
          by_cases hj : j = i
          · subst hj
            rw [getElem?_set_self st.old j _ hilen]
            have h := inv.keyEq j
            rw [hop] at h
            simpa using h
          · rw [getElem?_set_ne st.old i j _ hj]
            exact inv.keyEq j
        · intro j
          by_cases hj : j = i
          · subst hj
            rw [getElem?_set_self st.old j _ hilen]
            have h := inv.idEq j
            rw [hop] at h
            simpa using h
          · rw [getElem?_set_ne st.old i j _ hj]
            exact inv.idEq j
        · intro j op2 hop2
          by_cases hj : j = i
          · subst hj
            rw [getElem?_set_self st.old j _ hilen] at hop2
            simp only [Option.some.injEq] at hop2
            subst hop2
            simpa [hopk] using hitemP
          · rw [getElem?_set_ne st.old i j _ hj] at hop2
            have hne2 : op2.key ≠ item.key := by
              intro hEq
              exact hj (hkey_unique_st j i op2 op hop2 hop (by rw [hEq, hopk]))
            rw [hmemP op2.key hne2]
            exact inv.retainedIff j op2 hop2
        · intro j op2 hop2 hjlt
          by_cases hj : j = i
          · subst hj
            rw [getElem?_set_self st.old j _ hilen] at hop2
            simp only [Option.some.injEq] at hop2
            subst hop2
            exact Or.inl rfl
          · rw [getElem?_set_ne st.old i j _ hj] at hop2
            exact inv.seenBelow j op2 hop2 hjlt
        · intro j op2 hop2 hjge
          dsimp only at hjge
          have hj : j ≠ i := by omega
          rw [getElem?_set_ne st.old i j _ hj] at hop2
          exact inv.seenAbove j op2 hop2 hjge
        · intro j op0 h0
          exact inv.mapOld j op0 h0
        · intro k hk
          have hne2 : k ≠ item.key := fun hEq => hk (hEq ▸ hmem)
          rw [hmemP k hne2]
          exact inv.mapNew k hk
        · intro k
          have h0 := inv.retainMoveCount k
          rw [countP_append_single, countP_append_single, isRetainFor_move, isMoveFor_move]
          by_cases hk : k = item.key
          · subst hk
            rw [if_neg (fun hc => hkP hc.1)] at h0
            have hc : item.key ∈ P ++ [item.key] ∧ item.key ∈ old0.map (fun op => op.key) :=
              ⟨hitemP, hmem⟩
            rw [if_pos hc]
            simp only [beq_self_eq_true, if_true, Bool.false_eq_true, if_false]
            omega
          · have hk2 : (item.key == k) = false := by
              simp [beq_eq_false_iff_ne]
              intro hEq
              exact hk hEq.symm
            rw [hk2, if_congr (and_congr_left' (hmemP k hk)) rfl rfl]
            simp only [Bool.false_eq_true, if_false, Nat.add_zero]
            exact h0
        · intro k
          have h0 := inv.insertCount k
          rw [countP_append_single, isInsertFor_move]
          simp only [Bool.false_eq_true, if_false, Nat.add_zero]
          by_cases hk : k = item.key
          · subst hk
            rw [if_neg (fun hc => hc.2 hmem)] at h0
            rw [if_neg (fun hc => hc.2 hmem)]
            exact h0
          · rw [if_congr (and_congr_left' (hmemP k hk)) rfl rfl]
            exact h0
        · intro k
          have h0 := inv.deleteCount k
          rw [countP_append_single, isDeleteFor_move]
          simpa using h0
    | false =>
      have hge : st.idx ≤ i := by
        by_contra hcon
        push_neg at hcon
        rcases inv.seenBelow i op hop hcon with h | h
        · rw [hret] at h; simp at h
        · rw [hseen] at h; simp at h
      have hfirst : ∀ (j : Nat) (opj : ListItemOpcode), st.idx ≤ j → j < i →
          st.old[j]? = some opj → opj.key ≠ item.key := by
        intro j opj hj1 hj2 hj hkEq
        have hij := hkey_unique_st j i opj op hj hop (by rw [hkEq, hopk])
        omega
      have hfuel : i - st.idx ≤ st.old.length := by omega
      obtain ⟨old1, hscan, hlen1, hunch, hmark⟩ :=
        scanForKey_spec st.old.length st.old st.idx i item.key op hop hopk hfirst hge hfuel
      have hold1i : old1[i]? = some op := by
        rw [hunch i (Or.inr (Nat.le_refl i))]
        exact hop
      have hilen1 : i < old1.length := by rw [hlen1]; exact hilen
      have hnew_i : (old1.set i { op with memo := item.memo, value := item.value, retained := true })[i]? = some { op with memo := item.memo, value := item.value, retained := true } :=
        getElem?_set_self old1 i _ hilen1
      have hnew_lo : ∀ (j : Nat), j < st.idx → (old1.set i { op with memo := item.memo, value := item.value, retained := true })[j]? = st.old[j]? := by
        intro j hj
        rw [getElem?_set_ne old1 i j _ (by omega), hunch j (Or.inl hj)]
      have hnew_hi : ∀ (j : Nat), i < j → (old1.set i { op with memo := item.memo, value := item.value, retained := true })[j]? = st.old[j]? := by
        intro j hj
        rw [getElem?_set_ne old1 i j _ (by omega), hunch j (Or.inr (by omega))]
      have hnew_mid : ∀ (j : Nat), st.idx ≤ j → j < i → ∃ opj, st.old[j]? = some opj ∧ (old1.set i { op with memo := item.memo, value := item.value, retained := true })[j]? = some { opj with seen := true } := by
        intro j h1 h2
        obtain ⟨opj, hopj⟩ : ∃ opj, st.old[j]? = some opj :=
          ⟨_, List.getElem?_eq_getElem (by omega)⟩
        refine ⟨opj, hopj, ?_⟩
        rw [getElem?_set_ne old1 i j _ (by omega)]
        exact hmark j opj h1 h2 hopj
      refine ⟨{ st with
          old := old1.set i { op with memo := item.memo, value := item.value, retained := true },
          idx := i + 1,
          children := st.children ++ [.oldIdx i],
          trace := st.trace ++ [.retain item.key] },
        ?_, ?_⟩
      · simp [syncMain, hlookup, seenOfRef, hop, hseen, hscan, retainItem, hold1i]
      · dsimp only
        refine ⟨?_, ?_, ?_, ?_, ?_, ?_, ?_, ?_, ?_, ?_, ?_, inv.destroyedNil⟩
        · simp [List.length_set, hlen1, inv.lenEq]
        · intro j
          rcases Nat.lt_trichotomy j i with hj | hj | hj
          · by_cases hj2 : j < st.idx
            · rw [hnew_lo j hj2]
              exact inv.keyEq j
            · push_neg at hj2
              obtain ⟨opj, hopj, hset⟩ := hnew_mid j hj2 hj
              rw [hset]
              have h := inv.keyEq j
              rw [hopj] at h
              simpa using h
          · subst hj
            rw [hnew_i]
            have h := inv.keyEq j
            rw [hop] at h
            simpa using h
          · rw [hnew_hi j hj]
            exact inv.keyEq j
        · intro j
          rcases Nat.lt_trichotomy j i with hj | hj | hj
          · by_cases hj2 : j < st.idx
            · rw [hnew_lo j hj2]
              exact inv.idEq j
            · push_neg at hj2
              obtain ⟨opj, hopj, hset⟩ := hnew_mid j hj2 hj
              rw [hset]
              have h := inv.idEq j
              rw [hopj] at h
              simpa using h
          · subst hj
            rw [hnew_i]
            have h := inv.idEq j
            rw [hop] at h
            simpa using h
          · rw [hnew_hi j hj]
            exact inv.idEq j
        · intro j op2 hop2
          rcases Nat.lt_trichotomy j i with hj | hj | hj
          · by_cases hj2 : j < st.idx
            · rw [hnew_lo j hj2] at hop2
              have hne2 : op2.key ≠ item.key := by
                intro hEq
                have hij := hkey_unique_st j i op2 op hop2 hop (by rw [hEq, hopk])
                omega
              rw [hmemP op2.key hne2]
              exact inv.retainedIff j op2 hop2
            · push_neg at hj2
              obtain ⟨opj, hopj, hset⟩ := hnew_mid j hj2 hj
              rw [hset] at hop2
              simp only [Option.some.injEq] at hop2
              subst hop2
              have hne2 : opj.key ≠ item.key := by
                intro hEq
                have hij := hkey_unique_st j i opj op hopj hop (by rw [hEq, hopk])
                omega
              have base := inv.retainedIff j opj hopj
              simpa [hmemP opj.key hne2] using base
          · subst hj
            rw [hnew_i] at hop2
            simp only [Option.some.injEq] at hop2
            subst hop2
            simpa [hopk] using hitemP
          · rw [hnew_hi j hj] at hop2
            have hne2 : op2.key ≠ item.key := by
              intro hEq
              have hij := hkey_unique_st j i op2 op hop2 hop (by rw [hEq, hopk])
              omega
            rw [hmemP op2.key hne2]
            exact inv.retainedIff j op2 hop2
        · intro j op2 hop2 hjlt
          rcases Nat.lt_trichotomy j i with hj | hj | hj
          · by_cases hj2 : j < st.idx
            · rw [hnew_lo j hj2] at hop2
              exact inv.seenBelow j op2 hop2 hj2
            · push_neg at hj2
              obtain ⟨opj, hopj, hset⟩ := hnew_mid j hj2 hj
              rw [hset] at hop2
              simp only [Option.some.injEq] at hop2
              subst hop2
              exact Or.inr rfl
          · subst hj
            rw [hnew_i] at hop2
            simp only [Option.some.injEq] at hop2
            subst hop2
            exact Or.inl rfl
          · dsimp only at hjlt
            omega
        · intro j op2 hop2 hjge
          dsimp only at hjge
          have hj : i < j := by omega
          rw [hnew_hi j hj] at hop2
          exact inv.seenAbove j op2 hop2 (by omega)
        · intro j op0 h0
          exact inv.mapOld j op0 h0
        · intro k hk
          have hne2 : k ≠ item.key := fun hEq => hk (hEq ▸ hmem)
          rw [hmemP k hne2]
          exact inv.mapNew k hk
        · intro k
          have h0 := inv.retainMoveCount k
          rw [countP_append_single, countP_append_single, isRetainFor_retain, isMoveFor_retain]
          by_cases hk : k = item.key
          · subst hk
            rw [if_neg (fun hc => hkP hc.1)] at h0
            have hc : item.key ∈ P ++ [item.key] ∧ item.key ∈ old0.map (fun op => op.key) :=
              ⟨hitemP, hmem⟩
            rw [if_pos hc]
            simp only [beq_self_eq_true, if_true, Bool.false_eq_true, if_false]
            omega
          · have hk2 : (item.key == k) = false := by
              simp [beq_eq_false_iff_ne]
              intro hEq
              exact hk hEq.symm
            rw [hk2, if_congr (and_congr_left' (hmemP k hk)) rfl rfl]
            simp only [Bool.false_eq_true, if_false, Nat.add_zero]
            exact h0
        · intro k
          have h0 := inv.insertCount k
          rw [countP_append_single, isInsertFor_retain]
          simp only [Bool.false_eq_true, if_false, Nat.add_zero]
          by_cases hk : k = item.key
          · subst hk
            rw [if_neg (fun hc => hc.2 hmem)] at h0
            rw [if_neg (fun hc => hc.2 hmem)]
            exact h0
          · rw [if_congr (and_congr_left' (hmemP k hk)) rfl rfl]
            exact h0
        · intro k
          have h0 := inv.deleteCount k
          rw [countP_append_single, isDeleteFor_retain]
          simpa using h0
  · have hlookup : assocGet st.map item.key = none := by
      have h := inv.mapNew item.key hmem
      cases hl : assocGet st.map item.key with
      | none => rfl
      | some v =>
        have hin : item.key ∈ P := h.mp (by rw [hl]; rfl)
        exact absurd hin hkP
    have hkne : ∀ (j : Nat) (op2 : ListItemOpcode), st.old[j]? = some op2 →
        op2.key ≠ item.key := by
      intro j op2 hop2 hEq
      exact hmem (hEq ▸ hkeymem j op2 hop2)
    refine ⟨insertItem st item st.old[st.idx]?, by simp [syncMain, hlookup], ?_⟩
    dsimp only [insertItem]
    refine ⟨inv.lenEq, inv.keyEq, inv.idEq, ?_, inv.seenBelow, inv.seenAbove, ?_, ?_, ?_, ?_, ?_,
      inv.destroyedNil⟩
    · intro j op2 hop2
      rw [hmemP op2.key (hkne j op2 hop2)]
      exact inv.retainedIff j op2 hop2
    · intro j op0 h0
      have hne2 : op0.key ≠ item.key := by
        intro hEq
        exact hmem (hEq ▸ (mem_key_iff old0 op0.key).mpr ⟨j, op0, h0, rfl⟩)
      rw [assocGet_assocSet_ne st.map item.key op0.key _ hne2]
      exact inv.mapOld j op0 h0
    · intro k hk
      by_cases hkk : k = item.key
      · subst hkk
        rw [assocGet_assocSet_eq]
        simpa using hitemP
      · rw [assocGet_assocSet_ne st.map item.key k _ hkk, hmemP k hkk]
        exact inv.mapNew k hk
    · intro k
      have h0 := inv.retainMoveCount k
      rw [countP_append_single, countP_append_single, isRetainFor_insert, isMoveFor_insert]
      simp only [Bool.false_eq_true, if_false, Nat.add_zero]
      by_cases hk : k = item.key
      · subst hk
        rw [if_neg (fun hc => hmem hc.2)] at h0
        rw [if_neg (fun hc => hmem hc.2)]
        exact h0
      · rw [if_congr (and_congr_left' (hmemP k hk)) rfl rfl]
        exact h0
    · intro k
      have h0 := inv.insertCount k
      rw [countP_append_single, isInsertFor_insert]
      by_cases hk : k = item.key
      · subst hk
        rw [if_neg (fun hc => hkP hc.1)] at h0
        have hc : item.key ∈ P ++ [item.key] ∧ item.key ∉ old0.map (fun op => op.key) :=
          ⟨hitemP, hmem⟩
        rw [if_pos hc]
        simp only [beq_self_eq_true, if_true]
        omega
      · have hk2 : (item.key == k) = false := by
          simp [beq_eq_false_iff_ne]
          intro hEq
          exact hk hEq.symm
        rw [hk2, if_congr (and_congr_left' (hmemP k hk)) rfl rfl]
        simp only [Bool.false_eq_true, if_false, Nat.add_zero]
        exact h0
    · intro k
      have h0 := inv.deleteCount k
      rw [countP_append_single, isDeleteFor_insert]
      simpa using h0

/-- The invariant holds at pass start. -/
theorem syncInit_inv (old0 : List ListItemOpcode) (n0 : Nat)
    (hOldKeys : (old0.map (fun op => op.key)).Nodup)
    (hFlags : ∀ op ∈ old0, op.retained = false ∧ op.seen = false) :
    SyncInv old0 (syncInit old0 n0) [] := by
  refine ⟨rfl, fun j => rfl, fun j => rfl, ?_, ?_, ?_, ?_, ?_, ?_, ?_, ?_, rfl⟩
  · intro j op hop
    have hmem : op ∈ old0 := List.mem_iff_getElem?.mpr ⟨j, hop⟩
    simp [(hFlags op hmem).1]
  · intro j op _ hj
    simp [syncInit] at hj
  · intro j op hop _
    exact (hFlags op (List.mem_iff_getElem?.mpr ⟨j, hop⟩)).2
  · intro j op hop
    have h := initialMapAux_get old0 0 [] hOldKeys j op hop
    simpa using h
  · intro k hk
    show (assocGet (initialMapAux 0 old0 []) k).isSome = true ↔ k ∈ ([] : List Nat)
    rw [initialMapAux_not_mem old0 0 [] k hk]
    simp [assocGet]
  · intro k; simp [syncInit]
  · intro k; simp [syncInit]
  · intro k; simp [syncInit]

/-- The main loop runs to completion and maintains the invariant over
any suffix of fresh, pairwise-distinct keys. -/
theorem syncLoop_inv (old0 : List ListItemOpcode)
    (hOldKeys : (old0.map (fun op => op.key)).Nodup) :
    ∀ (rest : List IterItem) (st : SyncSt) (P : List Nat),
    SyncInv old0 st P →
    (∀ it ∈ rest, it.key ∉ P) →
    (rest.map (fun it => it.key)).Nodup →
    ∃ st1, syncLoop st rest = some st1 ∧
      SyncInv old0 st1 (P ++ rest.map (fun it => it.key)) := by
  intro rest
  induction rest with
  | nil =>
    intro st P inv _ _
    exact ⟨st, rfl, by simpa using inv⟩
  | cons it rest2 ih =>
    intro st P inv hfresh hnd
    obtain ⟨st1, hstep, inv1⟩ :=
      syncStep_preserves old0 st P it hOldKeys inv (hfresh it (List.mem_cons_self it rest2))
    rw [List.map_cons] at hnd
    have hnd1 := List.nodup_cons.mp hnd
    have hfresh2 : ∀ it2 ∈ rest2, it2.key ∉ P ++ [it.key] := by
      intro it2 h2 hin
      rw [List.mem_append] at hin
      rcases hin with hin | hin
      · exact hfresh it2 (List.mem_cons_of_mem it h2) hin
      · have hEq : it2.key = it.key := by simpa using hin
        exact hnd1.1 (hEq ▸ List.mem_map_of_mem (fun it => it.key) h2)
    obtain ⟨st2, hloop, inv2⟩ := ih st1 (P ++ [it.key]) inv1 hfresh2 hnd1.2
    refine ⟨st2, ?_, ?_⟩
    · simp only [syncLoop, hstep]
      exact hloop
    · have hEq : (P ++ [it.key]) ++ rest2.map (fun it => it.key) =
        P ++ (it :: rest2).map (fun it => it.key) := by simp
      exact hEq ▸ inv2

theorem count_append_single (l : List Nat) (a b : Nat) :
    (l ++ [b]).count a = l.count a + (if b == a then 1 else 0) := by
  simp [List.count_append, List.count_cons]

/-- Effect of the cleanup loop (modifiers.ts 683-691) on the first `m`
positions: exactly the unretained previous opcodes have been deleted
(one delete and one destroy each), nothing else was emitted, and
positions at or beyond `m` are untouched. -/
theorem finish_fold_spec (old0 : List ListItemOpcode) (stF : SyncSt) (PAll : List Nat)
    (hOldKeys : (old0.map (fun op => op.key)).Nodup)
    (hIds : (old0.map (fun op => op.id)).Nodup)
    (inv : SyncInv old0 stF PAll) :
    ∀ (m : Nat), m ≤ old0.length →
    (∀ (j : Nat), m ≤ j → ((List.range m).foldl finishStep stF).old[j]? = stF.old[j]?) ∧
    (∀ (i : Nat) (op0 : ListItemOpcode), old0[i]? = some op0 →
      ((List.range m).foldl finishStep stF).trace.countP (isDeleteFor op0.key) =
        if i < m ∧ ∃ opf, stF.old[i]? = some opf ∧ opf.retained = false then 1 else 0) ∧
    (∀ (k : Nat), k ∉ old0.map (fun o => o.key) →
      ((List.range m).foldl finishStep stF).trace.countP (isDeleteFor k) = 0) ∧
    (∀ (i : Nat) (op0 : ListItemOpcode), old0[i]? = some op0 →
      ((List.range m).foldl finishStep stF).destroyed.count op0.id =
        if i < m ∧ ∃ opf, stF.old[i]? = some opf ∧ opf.retained = false then 1 else 0) ∧
    (∀ (k : Nat), ((List.range m).foldl finishStep stF).trace.countP (isRetainFor k) =
      stF.trace.countP (isRetainFor k)) ∧
    (∀ (k : Nat), ((List.range m).foldl finishStep stF).trace.countP (isMoveFor k) =
      stF.trace.countP (isMoveFor k)) ∧
    (∀ (k : Nat), ((List.range m).foldl finishStep stF).trace.countP (isInsertFor k) =
      stF.trace.countP (isInsertFor k)) := by
  intro m
  induction m with
  | zero =>
    intro _
    refine ⟨fun j _ => rfl, ?_, ?_, ?_, fun k => rfl, fun k => rfl, fun k => rfl⟩
    · intro i op0 _
      rw [if_neg (fun hc => absurd hc.1 (Nat.not_lt_zero i))]
      exact inv.deleteCount op0.key
    · intro k _
      exact inv.deleteCount k
    · intro i op0 _
      rw [if_neg (fun hc => absurd hc.1 (Nat.not_lt_zero i))]
      show List.count op0.id stF.destroyed = 0
      rw [inv.destroyedNil]
      simp
  | succ m ihm =>
    intro hm1
    have hm : m ≤ old0.length := by omega
    obtain ⟨ihAbove, ihDel, ihDelNew, ihDes, ihRet, ihMov, ihIns⟩ := ihm hm
    have hfold : (List.range (m + 1)).foldl finishStep stF =
        finishStep ((List.range m).foldl finishStep stF) m := by
      rw [List.range_succ, List.foldl_append]
      rfl
    set stm := (List.range m).foldl finishStep stF with hstm
    have hmlen : m < old0.length := by omega
    have hmlenF : m < stF.old.length := by rw [inv.lenEq]; exact hmlen
    obtain ⟨opf, hopf⟩ : ∃ opf, stF.old[m]? = some opf :=
      ⟨_, List.getElem?_eq_getElem hmlenF⟩
    have hstmm : stm.old[m]? = some opf := by
      rw [ihAbove m (Nat.le_refl m)]
      exact hopf
    obtain ⟨op0m, hop0m⟩ : ∃ op0m, old0[m]? = some op0m :=
      ⟨_, List.getElem?_eq_getElem hmlen⟩
    have hkeym : opf.key = op0m.key := by
      have h := inv.keyEq m
      rw [hopf, hop0m] at h
      simpa using h
    have hidm : opf.id = op0m.id := by
      have h := inv.idEq m
      rw [hopf, hop0m] at h
      simpa using h
    have hkin : op0m.key ∈ old0.map (fun o => o.key) :=
      (mem_key_iff old0 op0m.key).mpr ⟨m, op0m, hop0m, rfl⟩
    cases hr : opf.retained with
    | false =>
      have hfs : finishStep stm m = deleteItem stm opf := by
        simp [finishStep, hstmm, hr]
      rw [hfold, hfs]
      refine ⟨?_, ?_, ?_, ?_, ?_, ?_, ?_⟩
      · intro j hj
        dsimp only [deleteItem]
        exact ihAbove j (by omega)
      · intro i op0 hi0
        dsimp only [deleteItem]
        rw [countP_append_single, isDeleteFor_delete]
        by_cases him : i = m
        · subst him
          rw [hi0] at hop0m
          have hopeq : op0 = op0m := Option.some.inj hop0m
          have hbeq : (opf.key == op0.key) = true := by
            rw [hkeym, hopeq]
            simp
          rw [hbeq, ihDel i op0 hi0,
            if_neg (fun hc => absurd hc.1 (Nat.lt_irrefl i))]
          have hc : i < i + 1 ∧ ∃ opf2, stF.old[i]? = some opf2 ∧ opf2.retained = false :=
            ⟨by omega, ⟨opf, hopf, hr⟩⟩
          rw [if_pos hc]
          simp
        · have hbeq : (opf.key == op0.key) = false := by
            rw [hkeym]
            simp only [beq_eq_false_iff_ne]
            intro hEq
            exact him (key_index_unique old0 hOldKeys i m op0 op0m hi0 hop0m hEq.symm)
          have hiff : (i < m + 1 ∧ ∃ opf2, stF.old[i]? = some opf2 ∧ opf2.retained = false) ↔
              (i < m ∧ ∃ opf2, stF.old[i]? = some opf2 ∧ opf2.retained = false) :=
            and_congr_left' (by omega)
          rw [hbeq, ihDel i op0 hi0, if_congr hiff rfl rfl]
          simp
      · intro k hk
        dsimp only [deleteItem]
        rw [countP_append_single, isDeleteFor_delete]
        have hbeq : (opf.key == k) = false := by
          rw [hkeym]
          simp only [beq_eq_false_iff_ne]
          intro hEq
          exact hk (hEq ▸ hkin)
        rw [hbeq, ihDelNew k hk]
        simp
      · intro i op0 hi0
        dsimp only [deleteItem]
        rw [count_append_single]
        by_cases him : i = m
        · subst him
          rw [hi0] at hop0m
          have hopeq : op0 = op0m := Option.some.inj hop0m
          have hbeq : (opf.id == op0.id) = true := by
            rw [hidm, hopeq]
            simp
          rw [hbeq, ihDes i op0 hi0,
            if_neg (fun hc => absurd hc.1 (Nat.lt_irrefl i))]
          have hc : i < i + 1 ∧ ∃ opf2, stF.old[i]? = some opf2 ∧ opf2.retained = false :=
            ⟨by omega, ⟨opf, hopf, hr⟩⟩
          rw [if_pos hc]
          simp
        · have hbeq : (opf.id == op0.id) = false := by
            rw [hidm]
            simp only [beq_eq_false_iff_ne]
            intro hEq
            exact him (id_index_unique old0 hIds i m op0 op0m hi0 hop0m hEq.symm)
          have hiff : (i < m + 1 ∧ ∃ opf2, stF.old[i]? = some opf2 ∧ opf2.retained = false) ↔
              (i < m ∧ ∃ opf2, stF.old[i]? = some opf2 ∧ opf2.retained = false) :=
            and_congr_left' (by omega)
          rw [hbeq, ihDes i op0 hi0, if_congr hiff rfl rfl]
          simp
      · intro k
        dsimp only [deleteItem]
        rw [countP_append_single, isRetainFor_delete]
        simpa using ihRet k
      · intro k
        dsimp only [deleteItem]
        rw [countP_append_single, isMoveFor_delete]
        simpa using ihMov k
      · intro k
        dsimp only [deleteItem]
        rw [countP_append_single, isInsertFor_delete]
        simpa using ihIns k
    | true =>
      have hfs : finishStep stm m =
          { stm with old := stm.old.set m { opf with retained := false, seen := false } } := by
        simp [finishStep, hstmm, hr]
      rw [hfold, hfs]
      have hnotex : ¬∃ opf2, stF.old[m]? = some opf2 ∧ opf2.retained = false := by
        intro h
        obtain ⟨opf2, h2, hr2⟩ := h
        rw [hopf] at h2
        rw [← Option.some.inj h2] at hr2
        rw [hr] at hr2
        simp at hr2
      refine ⟨?_, ?_, ?_, ?_, fun k => ihRet k, fun k => ihMov k, fun k => ihIns k⟩
      · intro j hj
        dsimp only
        rw [getElem?_set_ne stm.old m j _ (by omega)]
        exact ihAbove j (by omega)
      · intro i op0 hi0
        dsimp only
        rw [ihDel i op0 hi0]
        by_cases him : i = m
        · subst him
          rw [if_neg (fun hc => absurd hc.1 (Nat.lt_irrefl i)),
            if_neg (fun hc => hnotex hc.2)]
        · have hiff : (i < m + 1 ∧ ∃ opf2, stF.old[i]? = some opf2 ∧ opf2.retained = false) ↔
              (i < m ∧ ∃ opf2, stF.old[i]? = some opf2 ∧ opf2.retained = false) :=
            and_congr_left' (by omega)
          rw [if_congr hiff rfl rfl]
      · intro k hk
        dsimp only
        exact ihDelNew k hk
      · intro i op0 hi0
        dsimp only
        rw [ihDes i op0 hi0]
        by_cases him : i = m
        · subst him
          rw [if_neg (fun hc => absurd hc.1 (Nat.lt_irrefl i)),
            if_neg (fun hc => hnotex hc.2)]
        · have hiff : (i < m + 1 ∧ ∃ opf2, stF.old[i]? = some opf2 ∧ opf2.retained = false) ↔
              (i < m ∧ ∃ opf2, stF.old[i]? = some opf2 ∧ opf2.retained = false) :=
            and_congr_left' (by omega)
          rw [if_congr hiff rfl rfl]

/-- C2: for every reconciliation pass over a previous keyed sequence
and a new keyed sequence (keys disambiguated, hence pairwise distinct
within each sequence, per spec section 3; per-pass flags cleared, as
`reset()` leaves them): every key present in the previous sequence but
absent from the new one triggers exactly one delete, with that opcode's
destroy-resources invoked exactly once; every key present in the new
sequence but absent from the previous one triggers exactly one insert;
every key present in both triggers at most one retain or move, and no
delete.  In particular, reconciling `[("a",1)]` against `[]` produces
exactly one delete for key "a" with one destroy. -/
theorem sync_completeness (old0 : List ListItemOpcode) (items : List IterItem)
    (nextId0 : Nat)
    (hOldKeys : (old0.map (fun op => op.key)).Nodup)
    (hNewKeys : (items.map (fun it => it.key)).Nodup)
    (hIds : (old0.map (fun op => op.id)).Nodup)
    (hFlags : ∀ op ∈ old0, op.retained = false ∧ op.seen = false) :
    (∃ st, sync old0 items nextId0 = some st ∧
      (∀ (k : Nat), k ∈ old0.map (fun op => op.key) → k ∉ items.map (fun it => it.key) →
        st.trace.countP (isDeleteFor k) = 1 ∧
        ∃ op0, op0 ∈ old0 ∧ op0.key = k ∧ st.destroyed.count op0.id = 1) ∧
      (∀ (k : Nat), k ∈ items.map (fun it => it.key) → k ∉ old0.map (fun op => op.key) →
        st.trace.countP (isInsertFor k) = 1) ∧
      (∀ (k : Nat), k ∈ old0.map (fun op => op.key) → k ∈ items.map (fun it => it.key) →
        st.trace.countP (isRetainFor k) + st.trace.countP (isMoveFor k) ≤ 1 ∧
        st.trace.countP (isDeleteFor k) = 0)) ∧
    sync [{ id := 21, key := 5, value := 1, memo := 0, retained := false, seen := false }]
        [] 90 =
      some { old := [{ id := 21, key := 5, value := 1, memo := 0, retained := false,
                       seen := false }],
             idx := 0, children := [], map := [], fresh := [], dom := [.marker],
             trace := [.delete 5 21], nextId := 90, destroyed := [21] } := by
  refine ⟨?_, by decide⟩
  have inv0 := syncInit_inv old0 nextId0 hOldKeys hFlags
  have hfresh0 : ∀ it ∈ items, it.key ∉ ([] : List Nat) := by
    intro it _
    exact List.not_mem_nil it.key
  obtain ⟨stF, hloop, invF0⟩ :=
    syncLoop_inv old0 hOldKeys items (syncInit old0 nextId0) [] inv0 hfresh0 hNewKeys
  have invF : SyncInv old0 stF (items.map (fun it => it.key)) := by
    simpa using invF0
  obtain ⟨finAbove, finDel, finDelNew, finDes, finRet, finMov, finIns⟩ :=
    finish_fold_spec old0 stF (items.map (fun it => it.key)) hOldKeys hIds invF
      old0.length (Nat.le_refl old0.length)
  have hsync : sync old0 items nextId0 =
      some ((List.range old0.length).foldl finishStep stF) := by
    show (syncLoop (syncInit old0 nextId0) items).map finishPass =
      some ((List.range old0.length).foldl finishStep stF)
    rw [hloop]
    show some ((List.range stF.old.length).foldl finishStep stF) =
      some ((List.range old0.length).foldl finishStep stF)
    rw [invF.lenEq]
  refine ⟨_, hsync, ?_, ?_, ?_⟩
  · intro k hkold hknew
    obtain ⟨i, op0, hi0, hk0⟩ := (mem_key_iff old0 k).mp hkold
    have hilen : i < old0.length := (List.getElem?_eq_some_iff.mp hi0).1
    have hilenF : i < stF.old.length := by rw [invF.lenEq]; exact hilen
    obtain ⟨opf, hopf⟩ : ∃ opf, stF.old[i]? = some opf :=
      ⟨_, List.getElem?_eq_getElem hilenF⟩
    have hkf : opf.key = op0.key := by
      have h := invF.keyEq i
      rw [hopf, hi0] at h
      simpa using h
    have hrf : opf.retained = false := by
      cases hre : opf.retained with
      | false => rfl
      | true =>
        have hmm := (invF.retainedIff i opf hopf).mp hre
        rw [hkf, hk0] at hmm
        exact absurd hmm hknew
    have hc : i < old0.length ∧ ∃ opf2, stF.old[i]? = some opf2 ∧ opf2.retained = false :=
      ⟨hilen, ⟨opf, hopf, hrf⟩⟩
    constructor
    · have h := finDel i op0 hi0
      rw [if_pos hc] at h
      rw [← hk0]
      exact h
    · refine ⟨op0, List.mem_iff_getElem?.mpr ⟨i, hi0⟩, hk0, ?_⟩
      have h := finDes i op0 hi0
      rw [if_pos hc] at h
      exact h
  · intro k hknew hkold
    rw [finIns k, invF.insertCount k, if_pos ⟨hknew, hkold⟩]
  · intro k hkold hknew
    constructor
    · rw [finRet k, finMov k, invF.retainMoveCount k, if_pos ⟨hknew, hkold⟩]
    · obtain ⟨i, op0, hi0, hk0⟩ := (mem_key_iff old0 k).mp hkold
      have h := finDel i op0 hi0
      have hilen : i < old0.length := (List.getElem?_eq_some_iff.mp hi0).1
      have hilenF : i < stF.old.length := by rw [invF.lenEq]; exact hilen
      obtain ⟨opf, hopf⟩ : ∃ opf, stF.old[i]? = some opf :=
        ⟨_, List.getElem?_eq_getElem hilenF⟩
      have hkf : opf.key = op0.key := by
        have h2 := invF.keyEq i
        rw [hopf, hi0] at h2
        simpa using h2
      have hrt : opf.retained = true := by
        apply (invF.retainedIff i opf hopf).mpr
        rw [hkf, hk0]
        exact hknew
      have hnotex : ¬(i < old0.length ∧
          ∃ opf2, stF.old[i]? = some opf2 ∧ opf2.retained = false) := by
        intro hcon
        obtain ⟨_, opf2, h2, hr2⟩ := hcon
        rw [hopf] at h2
        rw [← Option.some.inj h2] at hr2
        rw [hrt] at hr2
        simp at hr2
      rw [if_neg hnotex] at h
      rw [← hk0]
      exact h

/-- Witness for C2 at a pass that deletes key 1, retains key 2 and
inserts key 3. -/
theorem sync_completeness_witness :
    (∃ st, sync
        ([{ id := 11, key := 1, value := 1, memo := 0, retained := false, seen := false },
          { id := 12, key := 2, value := 2, memo := 1, retained := false, seen := false }] :
          List ListItemOpcode)
        ([{ key := 2, value := 2, memo := 0 }, { key := 3, value := 3, memo := 1 }] :
          List IterItem) 50 =
        some st ∧
      (∀ (k : Nat),
        k ∈ ([{ id := 11, key := 1, value := 1, memo := 0, retained := false, seen := false },
              { id := 12, key := 2, value := 2, memo := 1, retained := false, seen := false }] :
              List ListItemOpcode).map (fun op => op.key) →
        k ∉ ([{ key := 2, value := 2, memo := 0 }, { key := 3, value := 3, memo := 1 }] :
              List IterItem).map (fun it => it.key) →
        st.trace.countP (isDeleteFor k) = 1 ∧
        ∃ op0, op0 ∈ ([{ id := 11, key := 1, value := 1, memo := 0, retained := false,
                         seen := false },
                       { id := 12, key := 2, value := 2, memo := 1, retained := false,
                         seen := false }] : List ListItemOpcode) ∧
          op0.key = k ∧ st.destroyed.count op0.id = 1) ∧
      (∀ (k : Nat),
        k ∈ ([{ key := 2, value := 2, memo := 0 }, { key := 3, value := 3, memo := 1 }] :
              List IterItem).map (fun it => it.key) →
        k ∉ ([{ id := 11, key := 1, value := 1, memo := 0, retained := false, seen := false },
              { id := 12, key := 2, value := 2, memo := 1, retained := false, seen := false }] :
              List ListItemOpcode).map (fun op => op.key) →
        st.trace.countP (isInsertFor k) = 1) ∧
      (∀ (k : Nat),
        k ∈ ([{ id := 11, key := 1, value := 1, memo := 0, retained := false, seen := false },
              { id := 12, key := 2, value := 2, memo := 1, retained := false, seen := false }] :
              List ListItemOpcode).map (fun op => op.key) →
        k ∈ ([{ key := 2, value := 2, memo := 0 }, { key := 3, value := 3, memo := 1 }] :
              List IterItem).map (fun it => it.key) →
        st.trace.countP (isRetainFor k) + st.trace.countP (isMoveFor k) ≤ 1 ∧
        st.trace.countP (isDeleteFor k) = 0)) ∧
    sync [{ id := 21, key := 5, value := 1, memo := 0, retained := false, seen := false }]
        [] 90 =
      some { old := [{ id := 21, key := 5, value := 1, memo := 0, retained := false,
                       seen := false }],
             idx := 0, children := [], map := [], fresh := [], dom := [.marker],
             trace := [.delete 5 21], nextId := 90, destroyed := [21] } :=
  sync_completeness
    [{ id := 11, key := 1, value := 1, memo := 0, retained := false, seen := false },
     { id := 12, key := 2, value := 2, memo := 1, retained := false, seen := false }]
    [{ key := 2, value := 2, memo := 0 }, { key := 3, value := 3, memo := 1 }] 50
    (by decide) (by decide) (by decide) (by decide)

/-! ## Claim C3: the pure-reorder scenario -/

/-- C3: reconciling `[(k1,1),(k2,2),(k3,3)]` against
`[(k2,2),(k3,3),(k1,1)]` (keys 1,2,3; opcode ids 11,12,13; memo = the
iteration index) produces exactly a retain of k2, a retain of k3 and a
move of k1 with an `undefined` before-target (to the end, before the
trailing marker), zero inserts and zero deletes, no destroys; the new
children are the original opcode instances (array positions 1, 2, 0,
ids 12, 13, 11 unchanged), with k2's opcode now first and k1's rendered
node moved to the end of the region, immediately before the marker. -/
theorem sync_reorder_scenario :
    sync [{ id := 11, key := 1, value := 1, memo := 0, retained := false, seen := false },
          { id := 12, key := 2, value := 2, memo := 1, retained := false, seen := false },
          { id := 13, key := 3, value := 3, memo := 2, retained := false, seen := false }]
         [{ key := 2, value := 2, memo := 0 },
          { key := 3, value := 3, memo := 1 },
          { key := 1, value := 1, memo := 2 }] 90 =
      some
        { old := [{ id := 11, key := 1, value := 1, memo := 2, retained := false, seen := false },
                  { id := 12, key := 2, value := 2, memo := 0, retained := false, seen := false },
                  { id := 13, key := 3, value := 3, memo := 1, retained := false, seen := false }],
          idx := 3,
          children := [.oldIdx 1, .oldIdx 2, .oldIdx 0],
          map := [(1, .oldIdx 0), (2, .oldIdx 1), (3, .oldIdx 2)],
          fresh := [],
          dom := [.item 12, .item 13, .item 11, .marker],
          trace := [.retain 2, .retain 3, .move 1 none],
          nextId := 90,
          destroyed := [] } := by
  decide

/-! ## Claim C9: anchor semantics of insert and move -/

/-- The rendered region during a pass: some nodes followed by the
trailing boundary marker created at pass start. -/
def MarkerLast (dom : List DomNode) : Prop :=
  ∃ front, dom = front ++ [DomNode.marker] ∧ DomNode.marker ∉ front

/-- `x` sits immediately before `y` in the node list. -/
def immediatelyBefore (dom : List DomNode) (x y : DomNode) : Prop :=
  ∃ l r, dom = l ++ x :: y :: r

/-- `x` is the last rendered node, immediately before the trailing
marker. -/
def atEndBeforeMarker (dom : List DomNode) (x : DomNode) : Prop :=
  ∃ l, dom = l ++ [x, DomNode.marker]

theorem domInsertBefore_append_marker (front : List DomNode) (x : DomNode)
    (h : DomNode.marker ∉ front) :
    domInsertBefore (front ++ [DomNode.marker]) x DomNode.marker =
      front ++ [x, DomNode.marker] := by
  induction front with
  | nil => simp [domInsertBefore]
  | cons n front1 ih =>
    have hn : n ≠ DomNode.marker := fun hEq => h (hEq ▸ List.mem_cons_self n front1)
    have h1 : DomNode.marker ∉ front1 := fun hm => h (List.mem_cons_of_mem n hm)
    simp [domInsertBefore, hn, ih h1]

theorem domInsertBefore_mem (dom : List DomNode) (x anchor : DomNode)
    (h : anchor ∈ dom) :
    ∃ l r, dom = l ++ anchor :: r ∧ anchor ∉ l ∧
      domInsertBefore dom x anchor = l ++ x :: anchor :: r := by
  induction dom with
  | nil => cases h
  | cons n rest ih =>
    by_cases hn : n = anchor
    · subst hn
      exact ⟨[], rest, rfl, List.not_mem_nil n, by simp [domInsertBefore]⟩
    · have h1 : anchor ∈ rest := by
        cases List.mem_cons.mp h with
        | inl hEq => exact absurd hEq.symm hn
        | inr hm => exact hm
      obtain ⟨l, r, hsplit, hnotin, hins⟩ := ih h1
      refine ⟨n :: l, r, by simp [hsplit], ?_, ?_⟩
      · intro hm
        cases List.mem_cons.mp hm with
        | inl hEq => exact hn hEq.symm
        | inr hm1 => exact hnotin hm1
      · simp [domInsertBefore, hn, hins]

theorem domRemove_append_marker (front : List DomNode) (x : DomNode)
    (hx : x ≠ DomNode.marker) :
    domRemove (front ++ [DomNode.marker]) x = domRemove front x ++ [DomNode.marker] := by
  have hmx : DomNode.marker ≠ x := fun h => hx h.symm
  induction front with
  | nil => simp [domRemove, hmx]
  | cons n front1 ih =>
    by_cases hn : n = x
    · simp [domRemove, hn]
    · simp [domRemove, hn, ih]

theorem mem_domRemove_of_ne (dom : List DomNode) (x y : DomNode)
    (hy : y ∈ dom) (hne : y ≠ x) : y ∈ domRemove dom x := by
  induction dom with
  | nil => cases hy
  | cons n rest ih =>
    by_cases hn : n = x
    · simp only [domRemove, if_pos hn]
      cases List.mem_cons.mp hy with
      | inl hEq => exact absurd (hEq.trans hn) hne
      | inr hm => exact hm
    · simp only [domRemove, if_neg hn]
      cases List.mem_cons.mp hy with
      | inl hEq => exact hEq ▸ List.mem_cons_self n (domRemove rest x)
      | inr hm => exact List.mem_cons_of_mem n (ih hm)

theorem mem_of_mem_domRemove (dom : List DomNode) (x y : DomNode)
    (hy : y ∈ domRemove dom x) : y ∈ dom := by
  induction dom with
  | nil => cases hy
  | cons n rest ih =>
    by_cases hn : n = x
    · simp only [domRemove, if_pos hn] at hy
      exact List.mem_cons_of_mem n hy
    · simp only [domRemove, if_neg hn] at hy
      cases List.mem_cons.mp hy with
      | inl hEq => exact hEq ▸ List.mem_cons_self n rest
      | inr hm => exact List.mem_cons_of_mem n (ih hm)

theorem markerLast_domRemove (dom : List DomNode) (x : DomNode)
    (h : MarkerLast dom) (hx : x ≠ DomNode.marker) : MarkerLast (domRemove dom x) := by
  obtain ⟨front, hsplit, hnotin⟩ := h
  refine ⟨domRemove front x, ?_, ?_⟩
  · rw [hsplit, domRemove_append_marker front x hx]
  · intro hm
    exact hnotin (mem_of_mem_domRemove front x DomNode.marker hm)

/-- C9: for every insert and every move, an `undefined`/missing
"before" target places the item's rendered node at the end of the
region, immediately before the trailing boundary marker created at pass
start; a present "before" target places it immediately before that
target opcode's first node. -/
theorem insert_move_anchor_semantics :
    (∀ (st : SyncSt) (item : IterItem), MarkerLast st.dom →
      atEndBeforeMarker (insertItem st item none).dom (.item st.nextId)) ∧
    (∀ (st : SyncSt) (item : IterItem) (b : ListItemOpcode),
      DomNode.item b.id ∈ st.dom →
      immediatelyBefore (insertItem st item (some b)).dom (.item st.nextId) (.item b.id)) ∧
    (∀ (st : SyncSt) (i : Nat) (op : ListItemOpcode) (item : IterItem),
      st.old[i]? = some op → MarkerLast st.dom →
      ∃ st1, moveItem st (.oldIdx i) item none = some st1 ∧
        atEndBeforeMarker st1.dom (.item op.id)) ∧
    (∀ (st : SyncSt) (i : Nat) (op : ListItemOpcode) (item : IterItem)
        (b : ListItemOpcode),
      st.old[i]? = some op → b.id ≠ op.id → DomNode.item b.id ∈ st.dom →
      ∃ st1, moveItem st (.oldIdx i) item (some b) = some st1 ∧
        immediatelyBefore st1.dom (.item op.id) (.item b.id)) := by
  refine ⟨?_, ?_, ?_, ?_⟩
  · intro st item hml
    obtain ⟨front, hsplit, hnotin⟩ := hml
    refine ⟨front, ?_⟩
    show domInsertBefore st.dom (.item st.nextId) (anchorFor none) =
      front ++ [DomNode.item st.nextId, DomNode.marker]
    rw [anchorFor, hsplit, domInsertBefore_append_marker front _ hnotin]
  · intro st item b hmem
    obtain ⟨l, r, _, _, hins⟩ := domInsertBefore_mem st.dom (.item st.nextId) (.item b.id) hmem
    exact ⟨l, r, hins⟩
  · intro st i op item hop hml
    have hml1 : MarkerLast (domRemove st.dom (.item op.id)) :=
      markerLast_domRemove st.dom (.item op.id) hml (by simp)
    obtain ⟨front, hsplit, hnotin⟩ := hml1
    refine ⟨{ st with
        old := st.old.set i { op with memo := item.memo, value := item.value, retained := true },
        children := st.children ++ [.oldIdx i],
        dom := domInsertBefore (domRemove st.dom (.item op.id)) (.item op.id) (anchorFor none),
        trace := st.trace ++ [.move item.key none] }, ?_, ?_⟩
    · simp [moveItem, hop]
    · refine ⟨front, ?_⟩
      show domInsertBefore (domRemove st.dom (.item op.id)) (.item op.id) (anchorFor none) =
        front ++ [DomNode.item op.id, DomNode.marker]
      rw [anchorFor, hsplit, domInsertBefore_append_marker front _ hnotin]
  · intro st i op item b hop hne hmem
    have hmem1 : DomNode.item b.id ∈ domRemove st.dom (.item op.id) :=
      mem_domRemove_of_ne st.dom (.item op.id) (.item b.id) hmem (by simp [hne])
    obtain ⟨l, r, _, _, hins⟩ :=
      domInsertBefore_mem (domRemove st.dom (.item op.id)) (.item op.id) (.item b.id) hmem1
    refine ⟨{ st with
        old := st.old.set i { op with memo := item.memo, value := item.value, retained := true },
        children := st.children ++ [.oldIdx i],
        dom := domInsertBefore (domRemove st.dom (.item op.id)) (.item op.id) (anchorFor (some b)),
        trace := st.trace ++ [.move item.key (some b.id)] }, ?_, ?_⟩
    · simp [moveItem, hop]
    · exact ⟨l, r, hins⟩

/-- Witness for C9: all four anchor cases at concrete inputs. -/
theorem insert_move_anchor_semantics_witness :
    (atEndBeforeMarker
      (insertItem (syncInit [] 40) { key := 9, value := 9, memo := 0 } none).dom
      (.item 40)) ∧
    (immediatelyBefore
      (insertItem
        (syncInit [{ id := 7, key := 1, value := 1, memo := 0,
                     retained := false, seen := false }] 40)
        { key := 9, value := 9, memo := 0 }
        (some { id := 7, key := 1, value := 1, memo := 0,
                retained := false, seen := false })).dom
      (.item 40) (.item 7)) ∧
    (∃ st1,
      moveItem
        (syncInit [{ id := 7, key := 1, value := 1, memo := 0,
                     retained := false, seen := false }] 40)
        (.oldIdx 0) { key := 1, value := 1, memo := 0 } none = some st1 ∧
      atEndBeforeMarker st1.dom (.item 7)) ∧
    (∃ st1,
      moveItem
        (syncInit [{ id := 7, key := 1, value := 1, memo := 0,
                     retained := false, seen := false },
                   { id := 8, key := 2, value := 2, memo := 1,
                     retained := false, seen := false }] 40)
        (.oldIdx 0) { key := 1, value := 1, memo := 0 }
        (some { id := 8, key := 2, value := 2, memo := 1,
                retained := false, seen := false }) = some st1 ∧
      immediatelyBefore st1.dom (.item 7) (.item 8)) := by
  refine ⟨?_, ?_, ?_, ?_⟩
  · exact insert_move_anchor_semantics.1 (syncInit [] 40)
      { key := 9, value := 9, memo := 0 } ⟨[], rfl, by simp⟩
  · exact insert_move_anchor_semantics.2.1
      (syncInit [{ id := 7, key := 1, value := 1, memo := 0,
                   retained := false, seen := false }] 40)
      { key := 9, value := 9, memo := 0 }
      { id := 7, key := 1, value := 1, memo := 0, retained := false, seen := false }
      (by decide)
  · exact insert_move_anchor_semantics.2.2.1
      (syncInit [{ id := 7, key := 1, value := 1, memo := 0,
                   retained := false, seen := false }] 40)
      0
      { id := 7, key := 1, value := 1, memo := 0, retained := false, seen := false }
      { key := 1, value := 1, memo := 0 }
      (by decide) ⟨[DomNode.item 7], rfl, by decide⟩
  · exact insert_move_anchor_semantics.2.2.2
      (syncInit [{ id := 7, key := 1, value := 1, memo := 0,
                   retained := false, seen := false },
                 { id := 8, key := 2, value := 2, memo := 1,
                   retained := false, seen := false }] 40)
      0
      { id := 7, key := 1, value := 1, memo := 0, retained := false, seen := false }
      { key := 1, value := 1, memo := 0 }
      { id := 8, key := 2, value := 2, memo := 1, retained := false, seen := false }
      (by decide) (by decide) (by decide)

/-! ## The updating VM (frame machine)

Faithful to the sources: the frame stack and cursor follow
`UpdatingVM`/`UpdatingVMFrame` of modifiers.ts 428-482 and 743-761
(array + `current` cursor; `nextStatement` reads `ops[current++]` and
the VM pops a frame when it yields `undefined`); `BlockOpcode.evaluate`
pushes its children with no handler, `TryOpcode.evaluate` pushes them
with itself as handler; `ListBlockOpcode.evaluate` follows the
tag-checked variant of reference.ts 402-426 (`validateTag` against the
`lastIterated` baseline, one synchronizer pass, `didInitializeChildren`
recording `valueForTag(artifacts.tag)` as the new baseline, then
`super.evaluate`).  The synchronizer pass itself (verified separately
above) and the transient marker handling are abstracted into a single
`syncPass` event; leaf opcodes stand for ordinary update opcodes, and a
throwing leaf leaves behind the tracking frame it had entered, as an
exception inside a tracking context does. -/

inductive LeafBeh where
  | ok : LeafBeh
  | throws (err : Nat) : LeafBeh

/-- The closed tagged-variant of update opcodes (spec section 9: an
explicit `kind` discriminant with `evaluate` selected by pattern
match). -/
inductive MOp where
  | leaf (id : Nat) (beh : LeafBeh) : MOp
  | block (id : Nat) (children : List MOp) : MOp
  | tryOp (id : Nat) (children : List MOp) : MOp
  | listBlock (id : Nat) (artifactsTag : Tag) (lastIterated : Nat)
      (children : List MOp) : MOp

/-- Observable events of one VM run. -/
inductive VMEv where
  | evalLeaf (id : Nat) : VMEv
  | syncPass (id : Nat) : VMEv
  | baseline (id : Nat) (rev : Nat) : VMEv
deriving DecidableEq, Repr

/-- One `UpdatingVMFrame` (modifiers.ts 743-761). -/
structure MFrame where
  ops : List MOp
  current : Nat
  handlerId : Option Nat

/-- The VM state: frame stack (head is the top), emitted events, and
the ambient tracking-context stack. -/
structure MVMSt where
  frames : List MFrame
  events : List VMEv
  tracking : TrackStack

inductive StepOut where
  | done (st : MVMSt) : StepOut
  | next (st : MVMSt) : StepOut
  | thrown (err : Nat) (st : MVMSt) : StepOut

/-- One iteration of the `while (true)` loop of `execute`
(modifiers.ts 446-458): pop an exhausted frame, otherwise pull the next
opcode and evaluate it. -/
def mstep (store : RevStore) (st : MVMSt) : StepOut :=
  match st.frames with
  | [] => .done st
  | fr :: rest =>
    match fr.ops[fr.current]? with
    | none => .next { st with frames := rest }
    | some op =>
      let st1 : MVMSt := { st with frames := { fr with current := fr.current + 1 } :: rest }
      match op with
      | .leaf id .ok => .next { st1 with events := st1.events ++ [.evalLeaf id] }
      | .leaf _ (.throws e) => .thrown e { st1 with tracking := [] :: st1.tracking }
      | .block _ cs => .next { st1 with frames := ⟨cs, 0, none⟩ :: st1.frames }
      | .tryOp id cs => .next { st1 with frames := ⟨cs, 0, some id⟩ :: st1.frames }
      | .listBlock id atag lastIt cs =>
        if validateTag store atag lastIt then
          .next { st1 with frames := ⟨cs, 0, none⟩ :: st1.frames }
        else
          .next { st1 with
            events := st1.events ++
              [.syncPass id, .baseline id (valueForTag store atag)],
            frames := ⟨cs, 0, none⟩ :: st1.frames }

inductive RunOut where
  | finished (st : MVMSt) : RunOut
  | stuck (st : MVMSt) : RunOut
  | threw (err : Nat) (st : MVMSt) : RunOut

/-- The VM loop, fuel-indexed. -/
def mrun (store : RevStore) : Nat → MVMSt → RunOut
  | 0, st => .stuck st
  | fuel + 1, st =>
    match mstep store st with
    | .done st1 => .finished st1
    | .next st1 => mrun store fuel st1
    | .thrown e st1 => .threw e st1

/-- The state `execute` starts from: `this.try(opcodes, handler)`
(modifiers.ts 444). -/
def executeInit (opcodes : List MOp) (handler : Option Nat) : MVMSt :=
  { frames := [⟨opcodes, 0, handler⟩], events := [], tracking := [] }

/-- The outcome of `execute`: the normal return or the propagated
exception, plus the emitted events and the final tracking stack. -/
structure ExecOut where
  result : Except Nat Unit
  events : List VMEv
  tracking : TrackStack

/-- `UpdatingVM.execute` (modifiers.ts 441-464): run the loop; on a
throw, `resetTracking()` and re-raise.  `none` means the fuel ran out
(the source loop has no such bound; every theorem below supplies a
terminating run). -/
def execute (store : RevStore) (fuel : Nat) (opcodes : List MOp)
    (handler : Option Nat) : Option ExecOut :=
  match mrun store fuel (executeInit opcodes handler) with
  | .finished st => some ⟨.ok (), st.events, st.tracking⟩
  | .stuck _ => none
  | .threw e st => some ⟨.error e, st.events, resetTracking st.tracking⟩

/-- Opcodes that register no exception handler anywhere (no try
opcode in the subtree). -/
inductive TryFree : MOp → Prop where
  | leaf : ∀ id beh, TryFree (.leaf id beh)
  | block : ∀ id cs, (∀ c ∈ cs, TryFree c) → TryFree (.block id cs)
  | listBlock : ∀ id atag lastIt cs, (∀ c ∈ cs, TryFree c) →
      TryFree (.listBlock id atag lastIt cs)

/-- Opcodes with no nested list block. -/
inductive ListBlockFree : MOp → Prop where
  | leaf : ∀ id beh, ListBlockFree (.leaf id beh)
  | block : ∀ id cs, (∀ c ∈ cs, ListBlockFree c) → ListBlockFree (.block id cs)
  | tryOp : ∀ id cs, (∀ c ∈ cs, ListBlockFree c) → ListBlockFree (.tryOp id cs)

/-! ## Claim C7 -/

/-- C7: when evaluating an opcode throws during an `execute` run and no
exception handler is registered in any active frame, the exception
propagates out of `execute` to the caller unchanged, and the global
tracking state is reset before propagation, so no partially-entered
tracking context remains active afterwards. -/
theorem execute_throw_resets_tracking (store : RevStore) (fuel : Nat)
    (opcodes : List MOp) (e : Nat) (st : MVMSt)
    (hnh : ∀ op ∈ opcodes, TryFree op)
    (hrun : mrun store fuel (executeInit opcodes none) = .threw e st) :
    execute store fuel opcodes none = some ⟨.error e, st.events, []⟩ := by
  rw [execute, hrun]
  rfl

/-- Witness for C7: a run whose second opcode throws inside a tracking
context; the dirty tracking stack is discarded and the error surfaces. -/
theorem execute_throw_resets_tracking_witness :
    execute (fun _ => 0) 10 [.leaf 1 .ok, .leaf 2 (.throws 7)] none =
      some ⟨.error 7, [.evalLeaf 1], []⟩ := by
  have h : mrun (fun _ => 0) 10 (executeInit [.leaf 1 .ok, .leaf 2 (.throws 7)] none) =
      .threw 7 { frames := [⟨[.leaf 1 .ok, .leaf 2 (.throws 7)], 2, none⟩],
                 events := [.evalLeaf 1], tracking := [[]] } := rfl
  exact execute_throw_resets_tracking (fun _ => 0) 10 [.leaf 1 .ok, .leaf 2 (.throws 7)] 7 _
    (by
      intro op hop
      simp only [List.mem_cons, List.not_mem_nil, or_false] at hop
      rcases hop with rfl | rfl
      · exact TryFree.leaf 1 .ok
      · exact TryFree.leaf 2 (.throws 7))
    h

/-! ## Claim C5 -/

def isSyncEv : VMEv → Bool
  | .syncPass _ => true
  | _ => false

/-- All opcodes still to be executed in the active frames are free of
list blocks. -/
def FramesLBF (st : MVMSt) : Prop :=
  ∀ fr ∈ st.frames, ∀ (j : Nat), fr.current ≤ j →
    ∀ op, fr.ops[j]? = some op → ListBlockFree op

/-- A run whose remaining work contains no list block emits no
synchronizer pass. -/
theorem mrun_no_sync (store : RevStore) :
    ∀ (fuel : Nat) (st stOut : MVMSt),
    FramesLBF st →
    mrun store fuel st = .finished stOut →
    ∃ rest, stOut.events = st.events ++ rest ∧ rest.countP isSyncEv = 0 := by
  intro fuel
  induction fuel with
  | zero =>
    intro st stOut _ h
    rw [mrun] at h
    cases h
  | succ fuel ih =>
    intro st stOut hlbf hrun
    rw [mrun] at hrun
    cases hfr : st.frames with
    | nil =>
      have hstep : mstep store st = .done st := by simp only [mstep, hfr]
      rw [hstep] at hrun
      cases hrun
      exact ⟨[], by simp, rfl⟩
    | cons fr rest =>
      have hmemfr : fr ∈ st.frames := hfr ▸ List.mem_cons_self fr rest
      cases hop : fr.ops[fr.current]? with
      | none =>
        have hstep : mstep store st = .next { st with frames := rest } := by
          simp only [mstep, hfr, hop]
        rw [hstep] at hrun
        have hlbf2 : FramesLBF { st with frames := rest } := by
          intro fr2 h2 j hj op hopj
          exact hlbf fr2 (hfr ▸ List.mem_cons_of_mem fr h2) j hj op hopj
        obtain ⟨r, hr, hc⟩ := ih _ stOut hlbf2 hrun
        exact ⟨r, hr, hc⟩
      | some op =>
        have hoplbf : ListBlockFree op := hlbf fr hmemfr fr.current (Nat.le_refl _) op hop
        have hfr1 : ∀ fr2 ∈ ({ fr with current := fr.current + 1 } :: rest : List MFrame),
            ∀ (j : Nat), fr2.current ≤ j → ∀ op2, fr2.ops[j]? = some op2 →
            ListBlockFree op2 := by
          intro fr2 h2 j hj op2 hop2
          rcases List.mem_cons.mp h2 with h3 | h3
          · subst h3
            exact hlbf fr hmemfr j (by simp at hj; omega) op2 hop2
          · exact hlbf fr2 (hfr ▸ List.mem_cons_of_mem fr h3) j hj op2 hop2
        cases op with
        | leaf id beh =>
          cases beh with
          | ok =>
            have hstep : mstep store st = .next { st with
                frames := { fr with current := fr.current + 1 } :: rest,
                events := st.events ++ [.evalLeaf id] } := by
              simp only [mstep, hfr, hop]
            rw [hstep] at hrun
            have hlbf2 : FramesLBF { st with
                frames := { fr with current := fr.current + 1 } :: rest,
                events := st.events ++ [.evalLeaf id] } := hfr1
            obtain ⟨r, hr, hc⟩ := ih _ stOut hlbf2 hrun
            refine ⟨.evalLeaf id :: r, ?_, ?_⟩
            · rw [hr]
              simp
            · simp [List.countP_cons, isSyncEv, hc]
          | throws e =>
            have hstep : mstep store st = .thrown e { st with
                frames := { fr with current := fr.current + 1 } :: rest,
                tracking := [] :: st.tracking } := by
              simp only [mstep, hfr, hop]
            rw [hstep] at hrun
            cases hrun
        | block id cs =>
          have hstep : mstep store st = .next { st with
              frames := ⟨cs, 0, none⟩ :: { fr with current := fr.current + 1 } :: rest } := by
            simp only [mstep, hfr, hop]
          rw [hstep] at hrun
          have hcs : ∀ c ∈ cs, ListBlockFree c := by
            cases hoplbf with
            | block _ _ h => exact h
          have hlbf2 : FramesLBF { st with
              frames := ⟨cs, 0, none⟩ :: { fr with current := fr.current + 1 } :: rest } := by
            intro fr2 h2 j hj op2 hop2
            rcases List.mem_cons.mp h2 with h3 | h3
            · subst h3
              exact hcs op2 (List.mem_iff_getElem?.mpr ⟨j, hop2⟩)
            · exact hfr1 fr2 h3 j hj op2 hop2
          obtain ⟨r, hr, hc⟩ := ih _ stOut hlbf2 hrun
          exact ⟨r, hr, hc⟩
        | tryOp id cs =>
          have hstep : mstep store st = .next { st with
              frames := ⟨cs, 0, some id⟩ :: { fr with current := fr.current + 1 } :: rest } := by
            simp only [mstep, hfr, hop]
          rw [hstep] at hrun
          have hcs : ∀ c ∈ cs, ListBlockFree c := by
            cases hoplbf with
            | tryOp _ _ h => exact h
          have hlbf2 : FramesLBF { st with
              frames := ⟨cs, 0, some id⟩ :: { fr with current := fr.current + 1 } :: rest } := by
            intro fr2 h2 j hj op2 hop2
            rcases List.mem_cons.mp h2 with h3 | h3
            · subst h3
              exact hcs op2 (List.mem_iff_getElem?.mpr ⟨j, hop2⟩)
            · exact hfr1 fr2 h3 j hj op2 hop2
          obtain ⟨r, hr, hc⟩ := ih _ stOut hlbf2 hrun
          exact ⟨r, hr, hc⟩
        | listBlock id atag lastIt cs =>
          cases hoplbf

/-- C5: for a list-block opcode executed by the VM, `evaluate` first
checks the backing collection's combined tag against the revision
recorded at the last synchronization: it runs exactly one reconciler
pass iff the tag is stale, records `valueForTag(artifacts.tag)` as the
new baseline, and only then re-evaluates its children — every event of
the run, in particular every child evaluation, comes after the pass;
when the tag validates, no pass runs at all. -/
theorem listBlock_evaluate_spec (store : RevStore) (fuel : Nat) (id : Nat)
    (atag : Tag) (lastIt : Nat) (cs : List MOp) (handler : Option Nat) (stOut : MVMSt)
    (hcs : ∀ c ∈ cs, ListBlockFree c)
    (hrun : mrun store fuel (executeInit [.listBlock id atag lastIt cs] handler) =
      .finished stOut) :
    (validateTag store atag lastIt = false →
      ∃ rest, stOut.events =
          .syncPass id :: .baseline id (valueForTag store atag) :: rest ∧
        rest.countP isSyncEv = 0) ∧
    (validateTag store atag lastIt = true →
      stOut.events.countP isSyncEv = 0) := by
  cases fuel with
  | zero =>
    rw [mrun] at hrun
    cases hrun
  | succ fuel =>
    rw [mrun] at hrun
    have houter : ∀ (j : Nat), 1 ≤ j →
        ∀ op2, ([MOp.listBlock id atag lastIt cs])[j]? = some op2 →
        ListBlockFree op2 := by
      intro j hj op2 hop2
      rw [List.getElem?_eq_none (by simp; omega)] at hop2
      cases hop2
    cases hv : validateTag store atag lastIt with
    | true =>
      have hstep : mstep store (executeInit [.listBlock id atag lastIt cs] handler) =
          .next { frames := [⟨cs, 0, none⟩, ⟨[.listBlock id atag lastIt cs], 1, handler⟩],
                  events := [], tracking := [] } := by
        simp [mstep, executeInit, hv]
      rw [hstep] at hrun
      have hlbf2 : FramesLBF
          { frames := [⟨cs, 0, none⟩, ⟨[.listBlock id atag lastIt cs], 1, handler⟩],
            events := [], tracking := [] } := by
        intro fr2 h2 j hj op2 hop2
        rcases List.mem_cons.mp h2 with h3 | h3
        · subst h3
          exact hcs op2 (List.mem_iff_getElem?.mpr ⟨j, hop2⟩)
        · rcases List.mem_cons.mp h3 with h4 | h4
          · subst h4
            exact houter j hj op2 hop2
          · cases h4
      obtain ⟨r, hr, hc⟩ := mrun_no_sync store fuel _ stOut hlbf2 hrun
      refine ⟨fun hfalse => ?_, fun _ => ?_⟩
      · simp at hfalse
      · rw [hr]
        simpa using hc
    | false =>
      have hstep : mstep store (executeInit [.listBlock id atag lastIt cs] handler) =
          .next { frames := [⟨cs, 0, none⟩, ⟨[.listBlock id atag lastIt cs], 1, handler⟩],
                  events := [.syncPass id, .baseline id (valueForTag store atag)],
                  tracking := [] } := by
        simp [mstep, executeInit, hv]
      rw [hstep] at hrun
      have hlbf2 : FramesLBF
          { frames := [⟨cs, 0, none⟩, ⟨[.listBlock id atag lastIt cs], 1, handler⟩],
            events := [.syncPass id, .baseline id (valueForTag store atag)],
            tracking := [] } := by
        intro fr2 h2 j hj op2 hop2
        rcases List.mem_cons.mp h2 with h3 | h3
        · subst h3
          exact hcs op2 (List.mem_iff_getElem?.mpr ⟨j, hop2⟩)
        · rcases List.mem_cons.mp h3 with h4 | h4
          · subst h4
            exact houter j hj op2 hop2
          · cases h4
      obtain ⟨r, hr, hc⟩ := mrun_no_sync store fuel _ stOut hlbf2 hrun
      refine ⟨fun _ => ⟨r, ?_, hc⟩, fun htrue => ?_⟩
      · rw [hr]
        simp
      · simp at htrue

/-- Witness for C5: a stale list block over one leaf child runs the
pass first, records baseline 5, then evaluates the child. -/
theorem listBlock_evaluate_spec_witness :
    ((validateTag (fun _ => 5) (.dirtyable 0) 3 = false →
      ∃ rest,
        ({ frames := [], events := [.syncPass 4, .baseline 4 5, .evalLeaf 1],
           tracking := [] } : MVMSt).events =
          .syncPass 4 :: .baseline 4 (valueForTag (fun _ => 5) (.dirtyable 0)) :: rest ∧
        rest.countP isSyncEv = 0) ∧
    (validateTag (fun _ => 5) (.dirtyable 0) 3 = true →
      ({ frames := [], events := [.syncPass 4, .baseline 4 5, .evalLeaf 1],
         tracking := [] } : MVMSt).events.countP isSyncEv = 0)) :=
  listBlock_evaluate_spec (fun _ => 5) 10 4 (.dirtyable 0) 3 [.leaf 1 .ok] none
    { frames := [], events := [.syncPass 4, .baseline 4 5, .evalLeaf 1], tracking := [] }
    (by
      intro c hc
      simp only [List.mem_cons, List.not_mem_nil, or_false] at hc
      subst hc
      exact ListBlockFree.leaf 1 .ok)
    rfl

/-! ## Exception recovery at try-boundaries (claim C6)

`TryOpcode.handleException` (modifiers.ts 550-568) destroys the
boundary's current children (`destroyChildren`), resumes an append VM
from the opcode's saved `ResumableVMState` with a builder re-entered on
the opcode's bounds (`NewElementBuilder.resume`), and installs the
freshly rendered update-opcode subtree as the new children.  The
re-derivation is abstracted by a function `derive` from the saved state
to the fresh children.

Modelled from the spec: the routing of a thrown exception to the
nearest enclosing try-boundary and the resumption of the run after
`handleException` (spec section 4.4: "the VM unwinds to the frame with
a registered handler, invokes handleException() on it, and resumes from
there").  No caller of `UpdatingVM.throw` is part of the excerpt, so
the evaluator below follows the spec's design note (section 9):
evaluation is a Result-returning step, and a try opcode whose children
evaluation reports an error performs the source's `handleException` and
recovers; siblings after the throwing opcode in the aborted frames are
not evaluated. -/

mutual
inductive UOp where
  | leaf (id : Nat) (thr : Bool) : UOp
  | block (id : Nat) (children : UOps) : UOp
  | tryOp (id : Nat) (resumeState : Nat) (children : UOps) : UOp
inductive UOps where
  | nil : UOps
  | cons (op : UOp) (rest : UOps) : UOps
end

def UOps.append : UOps → UOps → UOps
  | .nil, l2 => l2
  | .cons op rest, l2 => .cons op (UOps.append rest l2)

mutual
/-- Every opcode id in a subtree (the destroy-resources released by
`destroyChildren`/`destroy` are tracked per opcode id). -/
def subtreeIds : UOp → List Nat
  | .leaf id _ => [id]
  | .block id cs => id :: subtreeIdsList cs
  | .tryOp id _ cs => id :: subtreeIdsList cs
def subtreeIdsList : UOps → List Nat
  | .nil => []
  | .cons op rest => subtreeIds op ++ subtreeIdsList rest
end

mutual
/-- One evaluation step of an opcode: the updated opcode, the ids whose
destroy-resources ran, and the uncaught exception if any.  A try
boundary whose children evaluation reports an error destroys its
current children and re-derives fresh ones from its saved resumable
state (modifiers.ts 550-568), then reports success. -/
def evalOp (derive : Nat → UOps) : UOp → UOp × List Nat × Option Nat
  | .leaf id thr => (.leaf id thr, [], if thr then some id else none)
  | .block id cs =>
    match evalOps derive cs with
    | (cs1, d, e) => (.block id cs1, d, e)
  | .tryOp id rs cs =>
    match evalOps derive cs with
    | (cs1, d, none) => (.tryOp id rs cs1, d, none)
    | (cs1, d, some _) => (.tryOp id rs (derive rs), d ++ subtreeIdsList cs1, none)
/-- Evaluate a sibling sequence in order, aborting at the first
uncaught exception (later siblings stay unevaluated). -/
def evalOps (derive : Nat → UOps) : UOps → UOps × List Nat × Option Nat
  | .nil => (.nil, [], none)
  | .cons op rest =>
    match evalOp derive op with
    | (op1, d, some e) => (.cons op1 rest, d, some e)
    | (op1, d, none) =>
      match evalOps derive rest with
      | (rest1, d2, e2) => (.cons op1 rest1, d ++ d2, e2)
end

mutual
def throwFreeOp : UOp → Bool
  | .leaf _ thr => !thr
  | .block _ cs => throwFreeOps cs
  | .tryOp _ _ cs => throwFreeOps cs
def throwFreeOps : UOps → Bool
  | .nil => true
  | .cons op rest => throwFreeOp op && throwFreeOps rest
end

mutual
theorem evalOp_throwFree (derive : Nat → UOps) :
    ∀ (op : UOp), throwFreeOp op = true → evalOp derive op = (op, [], none)
  | .leaf id thr, h => by
    have h2 : thr = false := by simpa [throwFreeOp] using h
    subst h2
    simp [evalOp]
  | .block id cs, h => by
    have h2 : throwFreeOps cs = true := by simpa [throwFreeOp] using h
    have ih := evalOps_throwFree derive cs h2
    simp [evalOp, ih]
  | .tryOp id rs cs, h => by
    have h2 : throwFreeOps cs = true := by simpa [throwFreeOp] using h
    have ih := evalOps_throwFree derive cs h2
    simp [evalOp, ih]
theorem evalOps_throwFree (derive : Nat → UOps) :
    ∀ (ops : UOps), throwFreeOps ops = true → evalOps derive ops = (ops, [], none)
  | .nil, _ => by simp [evalOps]
  | .cons op rest, h => by
    have h1 : throwFreeOp op = true := by
      have h3 := h
      simp [throwFreeOps, Bool.and_eq_true] at h3
      exact h3.1
    have h2 : throwFreeOps rest = true := by
      have h3 := h
      simp [throwFreeOps, Bool.and_eq_true] at h3
      exact h3.2
    have ih1 := evalOp_throwFree derive op h1
    have ih2 := evalOps_throwFree derive rest h2
    simp [evalOps, ih1, ih2]
end

theorem evalOps_append_throwFree (derive : Nat → UOps) :
    ∀ (pre : UOps), throwFreeOps pre = true → ∀ (l2 : UOps),
    evalOps derive (UOps.append pre l2) =
      (UOps.append pre (evalOps derive l2).1,
       (evalOps derive l2).2.1, (evalOps derive l2).2.2)
  | .nil, _, l2 => by
    show evalOps derive l2 = _
    rfl
  | .cons op rest, h, l2 => by
    have h1 : throwFreeOp op = true := by
      have h3 := h
      simp [throwFreeOps, Bool.and_eq_true] at h3
      exact h3.1
    have h2 : throwFreeOps rest = true := by
      have h3 := h
      simp [throwFreeOps, Bool.and_eq_true] at h3
      exact h3.2
    have hrec := evalOps_append_throwFree derive rest h2 l2
    show evalOps derive (.cons op (UOps.append rest l2)) = _
    simp [evalOps, evalOp_throwFree derive op h1, hrec, UOps.append]

/-- C6: for a try-boundary `B` whose children evaluation throws an
exception that `B` handles, after the run returns normally the
resulting opcode tree is the original one with `B`'s subtree replaced
by the children freshly derived from `B`'s saved resumable state; the
children `B` had at handling time have been destroyed (their ids, after
those destroyed inside the aborted evaluation, make up the whole
destroy list), and every opcode before or after `B` is unmodified. -/
theorem tryOp_exception_isolation (derive : Nat → UOps) (pre post : UOps)
    (bid rs : Nat) (bcs : UOps) (e : Nat)
    (hpre : throwFreeOps pre = true)
    (hpost : throwFreeOps post = true)
    (hthrow : ∃ cs1 d, evalOps derive bcs = (cs1, d, some e)) :
    ∃ (cs1 : UOps) (d : List Nat),
      evalOps derive bcs = (cs1, d, some e) ∧
      evalOps derive (UOps.append pre (.cons (.tryOp bid rs bcs) post)) =
        (UOps.append pre (.cons (.tryOp bid rs (derive rs)) post),
         d ++ subtreeIdsList cs1, none) := by
  obtain ⟨cs1, d, hbcs⟩ := hthrow
  refine ⟨cs1, d, hbcs, ?_⟩
  rw [evalOps_append_throwFree derive pre hpre]
  have hB : evalOp derive (.tryOp bid rs bcs) =
      (.tryOp bid rs (derive rs), d ++ subtreeIdsList cs1, none) := by
    simp [evalOp, hbcs]
  have hrest := evalOps_throwFree derive post hpost
  have hcons : evalOps derive (.cons (.tryOp bid rs bcs) post) =
      (.cons (.tryOp bid rs (derive rs)) post, d ++ subtreeIdsList cs1, none) := by
    simp [evalOps, hB, hrest]
  rw [hcons]

/-- Witness for C6: a throwing leaf inside a try boundary flanked by
two healthy leaves. -/
theorem tryOp_exception_isolation_witness :
    ∃ (cs1 : UOps) (d : List Nat),
      evalOps (fun rs => .cons (.leaf (100 + rs) false) .nil)
          (.cons (.leaf 11 true) .nil) = (cs1, d, some 11) ∧
      evalOps (fun rs => .cons (.leaf (100 + rs) false) .nil)
          (UOps.append (.cons (.leaf 1 false) .nil)
            (.cons (.tryOp 10 3 (.cons (.leaf 11 true) .nil))
              (.cons (.leaf 2 false) .nil))) =
        (UOps.append (.cons (.leaf 1 false) .nil)
          (.cons (.tryOp 10 3 ((fun rs => UOps.cons (.leaf (100 + rs) false) .nil) 3))
            (.cons (.leaf 2 false) .nil)),
         d ++ subtreeIdsList cs1, none) :=
  tryOp_exception_isolation (fun rs => .cons (.leaf (100 + rs) false) .nil)
    (.cons (.leaf 1 false) .nil) (.cons (.leaf 2 false) .nil) 10 3
    (.cons (.leaf 11 true) .nil) 11
    (by simp [throwFreeOps, throwFreeOp])
    (by simp [throwFreeOps, throwFreeOp])
    ⟨.cons (.leaf 11 true) .nil, [], by simp [evalOps, evalOp]⟩

end GlimmerSpec
